import Mathlib

/-!
Verification of the pyserval client library (umr-ds/pyserval).

This file gives a shallow embedding, over `List Char` byte/character streams,
of the two algorithmic cores of the library and of the error-handling paths
around them:

* the incremental streaming JSON reader used by the two long-poll endpoints
  (`Rhizome.get_bundlelist_newsince` in `pyserval/rhizome.py` and
  `MeshMS.message_list_newsince` in `pyserval/meshms.py`);
* the manifest text parser (`Manifest.update` in `pyserval/lowlevel/rhizome.py`
  and its earlier revision in `src/pyserval/lowlevel/rhizome.py`), together with
  the scalar auto-cast helpers (`autocast` / `boolify` in `src/pyserval/util.py`
  and the field-typed `Manifest.autocast` of the current revision);
* `decode_json_table` (`pyserval/lowlevel/util.py`), and the insert/append and
  newsince status-code handling of `pyserval/rhizome.py`.

Python builtins that the source calls (`int()`, `float()`, `str.splitlines`,
`str.split`, `dict`) are modelled on the fragment the library exercises; each
model's doc comment states the fragment.
-/

set_option maxRecDepth 40000

namespace PyServal

/-! ### Models of the Python builtins used by the source -/

/-- The characters Python's `str.splitlines` treats as line boundaries
(`\r\n` additionally counts as a single boundary). -/
def pyLineBreak (c : Char) : Bool :=
  ['\n', '\r', '\x0b', '\x0c', '\x1c', '\x1d', '\x1e', '\x85', '\u2028', '\u2029'].contains c

/-- Model of Python `str.splitlines` (accumulator-passing scan; a trailing
line-break does not produce a final empty line, exactly as in Python). -/
def pySplitlinesGo : List Char → List Char → List (List Char)
  | [], acc => if acc = [] then [] else [acc.reverse]
  | '\r' :: '\n' :: rest, acc => acc.reverse :: pySplitlinesGo rest []
  | c :: rest, acc =>
    if pyLineBreak c then acc.reverse :: pySplitlinesGo rest []
    else pySplitlinesGo rest (c :: acc)

/-- Model of Python `str.splitlines`. -/
def pySplitlines (cs : List Char) : List (List Char) := pySplitlinesGo cs []

/-- Model of Python `s.split(sep)[0]` for a one-character separator: the prefix
of the string before the first occurrence of `sep` (the whole string when `sep`
does not occur). -/
def pySplitHead (sep : Char) (cs : List Char) : List Char :=
  cs.takeWhile (fun c => c ≠ sep)

/-- Model of Python `str.split` on a one-character separator with no maxsplit:
the string is split at EVERY occurrence of the separator (accumulator scan). -/
def pySplitCharGo (sep : Char) : List Char → List Char → List (List Char)
  | [], acc => [acc.reverse]
  | c :: rest, acc =>
    if c = sep then acc.reverse :: pySplitCharGo sep rest []
    else pySplitCharGo sep rest (c :: acc)

/-- Model of Python `str.split` on a one-character separator. -/
def pySplitChar (sep : Char) (cs : List Char) : List (List Char) :=
  pySplitCharGo sep cs []

/-- Numeric value of a big-endian list of ASCII digit characters. -/
def digitsVal (cs : List Char) : Nat :=
  cs.foldl (fun a c => 10 * a + (c.toNat - 48)) 0

/-- Digit-string parse underlying the model of Python `int()`: succeeds exactly
on a nonempty all-digit string. -/
def pyNatParse (cs : List Char) : Option Nat :=
  if cs ≠ [] ∧ cs.all Char.isDigit then some (digitsVal cs) else none

/-- Model of Python `int(str)` on the fragment the library exercises:
an optional single sign followed by ASCII digits.  (Python additionally
accepts surrounding whitespace, `_` digit separators and non-ASCII digits;
none of those occur in serval manifests or in rendered values.) -/
def pyIntParse (cs : List Char) : Option Int :=
  match cs with
  | [] => none
  | c :: rest =>
    if c = '-' then (pyNatParse rest).map (fun n => -(n : Int))
    else if c = '+' then (pyNatParse rest).map (fun n => (n : Int))
    else (pyNatParse cs).map (fun n => (n : Int))

/-- Normalise an exact decimal `m / 10 ^ e` by removing trailing factors of 10.
Python floats compare by value; on the exact-decimal fragment modelled here two
parses denote the same float value iff their normal forms coincide. -/
def normFloat : Int → Nat → Int × Nat
  | m, 0 => (m, 0)
  | m, e + 1 => if m % 10 = 0 then normFloat (m / 10) e else (m, e + 1)

/-- Unsigned core of the model of Python `float(str)`: `digits`, `digits.`,
`digits.digits` or `.digits`.  The result is the normalised exact decimal
`(mantissa, exponent)` denoting `mantissa / 10 ^ exponent`.  (Python also
accepts exponent notation and `inf`/`nan` spellings; the library never
produces or renders those, and IEEE-754 rounding is out of scope: values are
kept as exact decimals.) -/
def pyFloatCore (cs : List Char) : Option (Int × Nat) :=
  let ip := cs.takeWhile Char.isDigit
  let rest := cs.dropWhile Char.isDigit
  if rest = [] then
    if ip = [] then none else some (normFloat (digitsVal ip) 0)
  else if rest.head? = some '.' then
    let frac := rest.tail
    if frac.all Char.isDigit ∧ (ip ≠ [] ∨ frac ≠ []) then
      some (normFloat ((digitsVal ip : Int) * 10 ^ frac.length + (digitsVal frac : Int))
        frac.length)
    else none
  else none

/-- Model of Python `float(str)` (see `pyFloatCore` for the fragment). -/
def pyFloatParse (cs : List Char) : Option (Int × Nat) :=
  match cs with
  | [] => none
  | c :: rest =>
    if c = '-' then (pyFloatCore rest).map (fun p => (-p.1, p.2))
    else if c = '+' then pyFloatCore rest
    else pyFloatCore cs

/-- `boolify` from `src/pyserval/util.py`: `"true"`/`"True"` give `true`,
`"false"`/`"False"` give `false`, anything else raises `ValueError`
(modelled as `none`). -/
def boolify (cs : List Char) : Option Bool :=
  if cs = "true".data ∨ cs = "True".data then some true
  else if cs = "false".data ∨ cs = "False".data then some false
  else none

/-- The tagged scalar values a manifest field can carry after auto-casting. -/
inductive PyVal where
  | vint (n : Int)
  | vfloat (mantissa : Int) (exp10 : Nat)
  | vbool (b : Bool)
  | vstr (s : List Char)
deriving DecidableEq

/-- `autocast` from `src/pyserval/util.py`: attempt `int`, then `float`, then
`boolify`, in that order, first success wins; otherwise keep the string. -/
def autocast (cs : List Char) : PyVal :=
  match pyIntParse cs with
  | some n => .vint n
  | none =>
    match pyFloatParse cs with
    | some p => .vfloat p.1 p.2
    | none =>
      match boolify cs with
      | some b => .vbool b
      | none => .vstr cs

/-! ### Rendering values back to strings (model of Python `str()`) -/

/-- Big-endian ASCII digit characters of `n` (empty for `0`). -/
def natDigitChars (n : Nat) : List Char :=
  ((Nat.digits 10 n).map Nat.digitChar).reverse

/-- Model of Python `str()` on a natural number. -/
def natRender (n : Nat) : List Char :=
  if n = 0 then ['0'] else natDigitChars n

/-- Model of Python `str()` on an integer. -/
def intRender (n : Int) : List Char :=
  if n < 0 then '-' :: natRender n.natAbs else natRender n.natAbs

/-- Model of Python `str()` on a float holding the exact decimal
`m / 10 ^ e`: the integer part, a decimal point, and exactly `e` fraction
digits (one `0` fraction digit when `e = 0`, as Python always prints one).
Python prints the shortest decimal that reparses to the same double; this
rendering differs from it only by trailing zeros, which reparse to the same
value. -/
def floatRender (m : Int) (e : Nat) : List Char :=
  let M := m.natAbs
  let ip := M / 10 ^ e
  let fp := M % 10 ^ e
  let frac :=
    if e = 0 then ['0']
    else List.replicate (e - (natDigitChars fp).length) '0' ++ natDigitChars fp
  (if m < 0 then ['-'] else []) ++ natRender ip ++ '.' :: frac

/-- Model of Python `str()` on a cast scalar value. -/
def pyStr : PyVal → List Char
  | .vint n => intRender n
  | .vfloat m e => floatRender m e
  | .vbool true => "True".data
  | .vbool false => "False".data
  | .vstr s => s

/-! ### Model of Python `dict` built by in-order insertion -/

/-- Insert into an association list with Python `dict` semantics: an existing
key keeps its position and gets the new value, a fresh key is appended. -/
def dictInsert {α β : Type} [DecidableEq α] (k : α) (v : β) :
    List (α × β) → List (α × β)
  | [] => [(k, v)]
  | (k0, v0) :: rest =>
    if k0 = k then (k0, v) :: rest else (k0, v0) :: dictInsert k v rest

/-- Model of Python `dict(pairs)`: left-to-right insertion. -/
def pyDictOf {α β : Type} [DecidableEq α] (l : List (α × β)) : List (α × β) :=
  l.foldl (fun acc kv => dictInsert kv.1 kv.2 acc) []

/-- First value bound to a key in an association list
(model of Python `dict.get` / `dict[k]`). -/
def alookup {α β : Type} [DecidableEq α] (k : α) : List (α × β) → Option β
  | [] => none
  | (k0, v) :: rest => if k0 = k then some v else alookup k rest

/-! ### The streaming partial-JSON reader

`Rhizome.get_bundlelist_newsince` (`pyserval/rhizome.py`, constants 3 newlines
and `BUNDLELIST_HEADER_SIZE = 157`) and `MeshMS.message_list_newsince`
(`pyserval/meshms.py`, constants `MESSAGELIST_HEADER_NEWLINES = 5` and
`MESSAGELIST_HEADER_SIZE = 178`) run the same read loop over the one-byte
chunks of the streamed response body:

    for c in stream:
        if c == b'\n': lines += 1
        acc.append(c)
        if c == b']' and lines == EXPECTED and len(acc) > SIZE:
            acc += [b'\n', b']', b'\n', b'}']
            break
-/

/-- The synthetic closing bytes appended by the read loop on termination. -/
def synthClose : List Char := ['\n', ']', '\n', '\x7d']

/-- The read loop, carrying the newline counter and the number of bytes
accumulated so far.  If the stream ends before the termination condition is
met, the accumulated bytes are returned without the synthetic closing. -/
def readNewsinceGo (expected size : Nat) : List Char → Nat → Nat → List Char
  | [], _, _ => []
  | c :: rest, lines, len =>
    let lines2 := if c = '\n' then lines + 1 else lines
    if c = ']' ∧ lines2 = expected ∧ len + 1 > size then
      c :: synthClose
    else
      c :: readNewsinceGo expected size rest lines2 (len + 1)

/-- The buffer accumulated by the read loop on a given byte stream. -/
def readNewsince (expected size : Nat) (stream : List Char) : List Char :=
  readNewsinceGo expected size stream 0 0

/-- The read loop of `Rhizome.get_bundlelist_newsince`: 3 expected newlines,
header-size threshold 157. -/
def bundlelistRead (stream : List Char) : List Char := readNewsince 3 157 stream

/-- The read loop of `MeshMS.message_list_newsince`: 5 expected newlines,
header-size threshold 178. -/
def messagelistRead (stream : List Char) : List Char := readNewsince 5 178 stream

/-- Specification-side termination condition at index `i` of the stream: the
unit is `]`, the number of newlines strictly before it equals the expected
count, and the accumulated length including it strictly exceeds the
header-size threshold. -/
def isStop (expected size : Nat) (s : List Char) (i : Nat) : Bool :=
  decide (s[i]? = some ']' ∧ (s.take i).count '\n' = expected ∧ size < i + 1)

/-- Specification-side first index at which the termination condition holds. -/
def firstStop (expected size : Nat) (s : List Char) : Option Nat :=
  (List.range s.length).find? (isStop expected size s)

/-! ### The manifest text parser

`Manifest.update` (`pyserval/lowlevel/rhizome.py`):

    pure_manifest = response_data.split("\0")[0]
    values = {}
    for line in pure_manifest.splitlines():
        key, value = line.split("=")
        value = self.autocast(key, value)
        values[key] = value

The earlier revision (`src/pyserval/lowlevel/rhizome.py`) is identical except
that it casts with the value-only `autocast` from `src/pyserval/util.py`.
`key, value = line.split("=")` unpacks the full split into exactly two names,
so any line whose number of `=` characters differs from one raises a plain
`ValueError`; `int(value)` inside the field-typed `Manifest.autocast` can also
raise `ValueError`.  Both are modelled as `PyErr`. -/

/-- The Python `ValueError`s the manifest parser can raise. -/
inductive PyErr where
  | unpackMismatch (parts : Nat)
  | intCastError (s : List Char)
deriving DecidableEq

/-- The fields that `Manifest._types` (current revision) maps to `int`. -/
def intFields : List (List Char) :=
  ["version".data, "filesize".data, "date".data, "tail".data, "crypt".data]

/-- `Manifest.autocast` of the current revision (`pyserval/lowlevel/rhizome.py`):
fields listed in `Manifest._types` are cast with `int()` (whose `ValueError`
propagates), any other field name leaves the value as a string (the `KeyError`
is caught). -/
def manifestAutocast (field value : List Char) : Except PyErr PyVal :=
  if intFields.contains field then
    match pyIntParse value with
    | some n => .ok (.vint n)
    | none => .error (.intCastError value)
  else .ok (.vstr value)

/-- One line of `Manifest.update` (current revision):
`key, value = line.split("=")` then `self.autocast(key, value)`. -/
def parseManifestLine (line : List Char) : Except PyErr (List Char × PyVal) :=
  match pySplitChar '=' line with
  | [k, v] => (manifestAutocast k v).map (fun value => (k, value))
  | parts => .error (.unpackMismatch parts.length)

/-- One line of the earlier revision of `Manifest.update`
(`src/src/pyserval/lowlevel/rhizome.py`), which casts with the value-only
`autocast` of `src/src/pyserval/util.py` (that cast never raises). -/
def parseManifestLineU (line : List Char) : Except PyErr (List Char × PyVal) :=
  match pySplitChar '=' line with
  | [k, v] => .ok (k, autocast v)
  | parts => .error (.unpackMismatch parts.length)

/-- The `values` dict accumulation over the split lines. -/
def manifestUpdateGo (lineParse : List Char → Except PyErr (List Char × PyVal)) :
    List (List Char) → List (List Char × PyVal) →
    Except PyErr (List (List Char × PyVal))
  | [], acc => .ok acc
  | line :: rest, acc =>
    match lineParse line with
    | .ok kv => manifestUpdateGo lineParse rest (dictInsert kv.1 kv.2 acc)
    | .error e => .error e

/-- `Manifest.update` (current revision): the `values` mapping parsed from a
text+binarysig manifest blob, or the `ValueError` it raises. -/
def manifestUpdate (blob : List Char) : Except PyErr (List (List Char × PyVal)) :=
  manifestUpdateGo parseManifestLine (pySplitlines (pySplitHead '\x00' blob)) []

/-- `Manifest.update` of the earlier revision (`src/pyserval/lowlevel/rhizome.py`). -/
def manifestUpdateU (blob : List Char) : Except PyErr (List (List Char × PyVal)) :=
  manifestUpdateGo parseManifestLineU (pySplitlines (pySplitHead '\x00' blob)) []

/-- Modelled from the spec: "For each line, split on the first `=` character
into `(key, value)`"; `none` stands for the `MalformedManifestLine` condition
the spec prescribes for a line with no `=`.  (No such splitting — and no such
condition — exists in the source; this definition exists only to be compared
with `parseManifestLine`.) -/
def specSplitFirstEq (line : List Char) : Option (List Char × List Char) :=
  match line.dropWhile (fun c => c ≠ '=') with
  | '=' :: v => some (line.takeWhile (fun c => c ≠ '='), v)
  | _ => none

/-! ### decode_json_table -/

/-- `decode_json_table` (`pyserval/lowlevel/util.py` and `src/pyserval/util.py`):
each row is zipped against the header (`zip` stops at the shorter of the two)
and collected into a dict; one mapping per row, in row order. -/
def decode_json_table {κ β : Type} [DecidableEq κ]
    (header : List κ) (rows : List (List β)) : List (List (κ × β)) :=
  rows.map (fun row => pyDictOf (header.zip row))

/-- Re-encoding a decoded mapping by reading it back in header order. -/
def encodeRow {κ β : Type} [DecidableEq κ]
    (header : List κ) (m : List (κ × β)) : List β :=
  header.filterMap (fun f => alookup f m)

/-! ### A JSON parser for the streamed table buffers

The read buffers are checked against real JSON semantics with a standard
recursive-descent parser (fuelled by the input length).  The fragment covers
everything a serval JSON table contains: objects, arrays, escape-free strings,
integers, `true`/`false`/`null`, and whitespace. -/

/-- Parsed JSON values. -/
inductive JVal where
  | jnull
  | jbool (b : Bool)
  | jint (n : Int)
  | jstr (s : List Char)
  | jarr (xs : List JVal)
  | jobj (fields : List (List Char × JVal))

/-- Skip JSON whitespace. -/
def skipWs (cs : List Char) : List Char :=
  cs.dropWhile (fun c => c = ' ' ∨ c = '\n' ∨ c = '\t' ∨ c = '\r')

/-- Parse the body of a JSON string after the opening quote (escape-free
fragment; serval field names and the test rows used here contain none). -/
def parseStringBody (cs : List Char) : Option (List Char × List Char) :=
  match cs.dropWhile (fun c => c ≠ '"') with
  | '"' :: r => some (cs.takeWhile (fun c => c ≠ '"'), r)
  | _ => none

mutual

/-- Parse one JSON value, returning it and the unconsumed rest. -/
def parseJVal : Nat → List Char → Option (JVal × List Char)
  | 0, _ => none
  | f + 1, cs =>
    match skipWs cs with
    | '"' :: rest => (parseStringBody rest).map (fun p => (.jstr p.1, p.2))
    | 'n' :: 'u' :: 'l' :: 'l' :: r => some (.jnull, r)
    | 't' :: 'r' :: 'u' :: 'e' :: r => some (.jbool true, r)
    | 'f' :: 'a' :: 'l' :: 's' :: 'e' :: r => some (.jbool false, r)
    | '[' :: r =>
      (match skipWs r with
       | ']' :: r2 => some (.jarr [], r2)
       | _ => do
         let (v, r2) ← parseJVal f r
         let (vs, r3) ← parseJArrRest f r2
         pure (.jarr (v :: vs), r3))
    | '\x7b' :: r =>
      (match skipWs r with
       | '\x7d' :: r2 => some (.jobj [], r2)
       | _ => do
         let (kv, r2) ← parseJMember f r
         let (kvs, r3) ← parseJObjRest f r2
         pure (.jobj (kv :: kvs), r3))
    | '-' :: r =>
      (match pyNatParse (r.takeWhile Char.isDigit) with
       | some n => some (.jint (-(n : Int)), r.dropWhile Char.isDigit)
       | none => none)
    | c :: r =>
      (match pyNatParse ((c :: r).takeWhile Char.isDigit) with
       | some n => some (.jint (n : Int), (c :: r).dropWhile Char.isDigit)
       | none => none)
    | [] => none

/-- Parse the remaining elements of a JSON array after one element. -/
def parseJArrRest : Nat → List Char → Option (List JVal × List Char)
  | 0, _ => none
  | f + 1, cs =>
    match skipWs cs with
    | ']' :: r => some ([], r)
    | ',' :: r => do
      let (v, r2) ← parseJVal f r
      let (vs, r3) ← parseJArrRest f r2
      pure (v :: vs, r3)
    | _ => none

/-- Parse one `"key": value` member of a JSON object. -/
def parseJMember : Nat → List Char → Option ((List Char × JVal) × List Char)
  | 0, _ => none
  | f + 1, cs =>
    match skipWs cs with
    | '"' :: rest => do
      let (k, r2) ← parseStringBody rest
      match skipWs r2 with
      | ':' :: r3 => do
        let (v, r4) ← parseJVal f r3
        pure ((k, v), r4)
      | _ => none
    | _ => none

/-- Parse the remaining members of a JSON object after one member. -/
def parseJObjRest : Nat → List Char → Option (List (List Char × JVal) × List Char)
  | 0, _ => none
  | f + 1, cs =>
    match skipWs cs with
    | '\x7d' :: r => some ([], r)
    | ',' :: r => do
      let (kv, r2) ← parseJMember f r
      let (kvs, r3) ← parseJObjRest f r2
      pure (kv :: kvs, r3)
    | _ => none

end

/-- Parse a complete byte buffer as one JSON value (model of `json.loads`:
fails unless the whole buffer is consumed). -/
def jsonParse (cs : List Char) : Option JVal :=
  match parseJVal (cs.length + 1) cs with
  | some (v, rest) => if skipWs rest = [] then some v else none
  | none => none

/-- Extract the `header` field names and `rows` of a parsed JSON table. -/
def tableOfJVal (j : JVal) : Option (List (List Char) × List (List JVal)) :=
  match j with
  | .jobj fields => do
    let h ← alookup "header".data fields
    let r ← alookup "rows".data fields
    match h, r with
    | .jarr hs, .jarr rs => do
      let names ← hs.mapM (fun x => match x with | .jstr s => some s | _ => none)
      let rowLists ← rs.mapM (fun x => match x with | .jarr vs => some vs | _ => none)
      pure (names, rowLists)
    | _, _ => none
  | _ => none

/-- Parse a buffer as JSON and decode it as a JSON table: `json.loads`
followed by `decode_json_table`.  `none` means the buffer is not valid JSON
(or not a table). -/
def decodeTable (cs : List Char) : Option (List (List (List Char × JVal))) := do
  let j ← jsonParse cs
  let t ← tableOfJVal j
  pure (decode_json_table t.1 t.2)

/-! ### Status-code handling around the calls -/

/-- The slice of a `requests` response that the handlers inspect. -/
structure ServalResponse where
  status : Nat
  text : List Char
  headers : List (List Char × List Char)
deriving DecidableEq

/-- The exceptions raised by `_handle_bundle_error` and the insert/append path
(`pyserval/rhizome.py`), plus the uncaught `ValueError` that escapes
`manifest.update` on a malformed reply body. -/
inductive BundleErr where
  | duplicateBundle (bid : Option PyVal)
  | insertionError (httpStatus : Nat) (bundleStatus bundleMessage : Option (List Char))
      (responseText : List Char)
  | valueError (e : PyErr)
deriving DecidableEq

/-- `_handle_bundle_error` (`pyserval/rhizome.py`): a 200 reply is parsed as a
manifest and raised as `DuplicateBundleException(bid=manifest.id)`; any other
status is raised as `RhizomeInsertionError` with the two
`Serval-Rhizome-Result-...` headers and the reply text. -/
def handle_bundle_error (reply : ServalResponse) : BundleErr :=
  if reply.status = 200 then
    match manifestUpdate reply.text with
    | .ok entries => .duplicateBundle (alookup "id".data entries)
    | .error e => .valueError e
  else
    .insertionError reply.status
      (alookup "Serval-Rhizome-Result-Bundle-Status-Code".data reply.headers)
      (alookup "Serval-Rhizome-Result-Bundle-Status-Message".data reply.headers)
      reply.text

/-- `Rhizome.insert` (`pyserval/rhizome.py`) from the HTTP reply onward: a 201
reply is parsed into the new bundle's manifest (returned with
`bundle_id = manifest.id`); anything else goes to `_handle_bundle_error`. -/
def rhizomeInsertReply (reply : ServalResponse) :
    Except BundleErr (Option PyVal × List (List Char × PyVal)) :=
  if reply.status = 201 then
    match manifestUpdate reply.text with
    | .ok entries => .ok (alookup "id".data entries, entries)
    | .error e => .error (.valueError e)
  else .error (handle_bundle_error reply)

/-- `Rhizome.append` (`pyserval/rhizome.py`) from the HTTP reply onward;
its status handling is identical to `Rhizome.insert`. -/
def rhizomeAppendReply (reply : ServalResponse) :
    Except BundleErr (Option PyVal × List (List Char × PyVal)) :=
  if reply.status = 201 then
    match manifestUpdate reply.text with
    | .ok entries => .ok (alookup "id".data entries, entries)
    | .error e => .error (.valueError e)
  else .error (handle_bundle_error reply)

/-- The slice of a streamed `requests` response the newsince calls inspect. -/
structure StreamResponse where
  status : Nat
  reason : List Char
  content : List Char
deriving DecidableEq

/-- The exceptions the two newsince calls raise on a bad status.
`InvalidTokenError.__init__` (`pyserval/exceptions.py`) stores only the token
and the reason; `RhizomeHTTPStatusError.__init__` stores the status code and
`serval_response.json()` — constructing it READS and JSON-parses the response
body, and a body that is not valid JSON makes that call raise
`json.JSONDecodeError` instead. -/
inductive NewsinceErr where
  | invalidToken (token reason : List Char)
  | httpStatusError (status : Nat) (body : JVal)
  | jsonDecodeError (body : List Char)

/-- Raising `RhizomeHTTPStatusError(serval_stream)`: its constructor calls
`serval_response.json()`, so the outcome depends on the response body — the
status error carrying the decoded body when it is valid JSON, a
`JSONDecodeError` otherwise. -/
def rhizomeHTTPStatusRaise (resp : StreamResponse) : NewsinceErr :=
  match jsonParse resp.content with
  | some j => .httpStatusError resp.status j
  | none => .jsonDecodeError resp.content

/-- `Rhizome.get_bundlelist_newsince` (`pyserval/rhizome.py`) up to the JSON
decode: 404 raises `InvalidTokenError(token, reason)`, any other non-200
status raises `RhizomeHTTPStatusError`, otherwise the read loop runs and the
accumulated buffer is returned (the subsequent `json.loads` +
`_parse_bundlelist` consume only this buffer). -/
def get_bundlelist_newsince (token : List Char) (resp : StreamResponse) :
    Except NewsinceErr (List Char) :=
  if resp.status = 404 then .error (.invalidToken token resp.reason)
  else if resp.status ≠ 200 then .error (rhizomeHTTPStatusRaise resp)
  else .ok (bundlelistRead resp.content)

/-- `MeshMS.message_list_newsince` (`pyserval/meshms.py`) up to the JSON
decode; its status handling is identical, with the messaging constants. -/
def message_list_newsince (token : List Char) (resp : StreamResponse) :
    Except NewsinceErr (List Char) :=
  if resp.status = 404 then .error (.invalidToken token resp.reason)
  else if resp.status ≠ 200 then .error (rhizomeHTTPStatusRaise resp)
  else .ok (messagelistRead resp.content)

/-! ### Concrete specimen streams for the streaming claims -/

/-- A well-formed bundle-list table header: exactly 157 bytes, exactly 3
newlines, ending in `"rows":[` plus a newline — the shape whose byte length
is the endpoint's `BUNDLELIST_HEADER_SIZE` threshold. -/
def specimenHeader : List Char :=
  ("\x7b\n\"header\":[\"_id\",\"service\",\"id\",\"version\",\"date\",\".inserttime\",\".author\",\".fromhere\",\"filesize\",\"filehash\",\"sender\",\"recipient\",\"namexxxxxxxxxx\"],\n\"rows\":[\n").data

/-- A complete, well-formed ZERO-row table byte string: header, no rows, then
the closing `]`, newline, `\x7d`. -/
def zeroRowTable : List Char := specimenHeader ++ (']' :: '\n' :: ['\x7d'])

/-- A one-row table row body: the row's bytes up to (not including) its
closing `]`. -/
def specimenRowBody : List Char := "[\"file1\",7".data

/-- A two-row complete table (rows separated by `,` and newline-terminated). -/
def twoRowTable : List Char :=
  specimenHeader ++ "[\"file1\",7],\n[\"file2\",9]".data ++ ('\n' :: ']' :: '\n' :: ['\x7d'])

/-- The buffer the incremental reader accumulates on `zeroRowTable`: it stops
at the `]` closing the empty rows array and appends the synthetic closing. -/
def zeroRowReadBuffer : List Char := specimenHeader ++ ']' :: synthClose

/-- The buffer the incremental reader accumulates on `twoRowTable`: it stops
at the `]` closing the FIRST row and appends the synthetic closing, so the
second row is lost. -/
def twoRowReadBuffer : List Char :=
  specimenHeader ++ "[\"file1\",7]".data ++ synthClose

/-! ## Theorems -/

/-! ### Characterisation of the streaming read loop -/

/-- The read loop, started after a prefix `pre` has already been consumed,
stops at the first global index satisfying `isStop` and appends the synthetic
closing; if no index qualifies it consumes the whole stream unchanged. -/
theorem readNewsinceGo_spec (expected size : Nat) :
    ∀ (s pre : List Char),
      readNewsinceGo expected size s (pre.count '\n') pre.length =
        match (List.range s.length).find?
            (fun i => isStop expected size (pre ++ s) (pre.length + i)) with
        | some i => s.take (i + 1) ++ synthClose
        | none => s := by
  intro s
  induction s with
  | nil => intro pre; simp [readNewsinceGo]
  | cons c rest ih =>
    intro pre
    have hget : (pre ++ c :: rest)[pre.length]? = some c := by
      rw [List.getElem?_append_right (Nat.le_refl _)]
      simp
    have htake : (pre ++ c :: rest).take pre.length = pre := by
      simpa using @List.take_left' Char pre (c :: rest) pre.length rfl
    have hP0 : isStop expected size (pre ++ c :: rest) (pre.length + 0) =
        decide (c = ']' ∧ (List.count '\n' pre) = expected ∧ size < pre.length + 1) := by
      simp only [isStop, Nat.add_zero, hget, htake]
      simp
    by_cases hstop : c = ']' ∧ (if c = '\n' then List.count '\n' pre + 1 else List.count '\n' pre) = expected ∧ pre.length + 1 > size
    · -- the loop stops at this unit
      have hc : c = ']' := hstop.1
      have hcn : ¬ c = '\n' := by rw [hc]; decide
      have hlines : (if c = '\n' then List.count '\n' pre + 1 else List.count '\n' pre) = List.count '\n' pre := by
        simp [hcn]
      have hP0t : isStop expected size (pre ++ c :: rest) (pre.length + 0) = true := by
        rw [hP0]
        simp only [decide_eq_true_eq]
        exact ⟨hc, by rw [← hlines]; exact hstop.2.1, hstop.2.2⟩
      have hfind : (List.range (c :: rest).length).find?
          (fun i => isStop expected size (pre ++ c :: rest) (pre.length + i)) = some 0 := by
        rw [List.length_cons, List.range_succ_eq_map]
        exact List.find?_cons_of_pos _ hP0t
      rw [hfind]
      simp only [readNewsinceGo, if_pos hstop]
      simp
    · -- the loop continues with this unit appended
      have hP0f : isStop expected size (pre ++ c :: rest) (pre.length + 0) = false := by
        rw [hP0]
        simp only [decide_eq_false_iff_not]
        intro ⟨h1, h2, h3⟩
        have hcn : ¬ c = '\n' := by rw [h1]; decide
        exact hstop ⟨h1, by simpa [hcn] using h2, h3⟩
      have hcount : (if c = '\n' then List.count '\n' pre + 1 else List.count '\n' pre) =
          List.count '\n' (pre ++ [c]) := by
        by_cases hc : c = '\n'
        · simp [hc, List.count_append]
        · have h0 : List.count '\n' [c] = 0 :=
            List.count_eq_zero.mpr (by simp [eq_comm, hc])
          simp [hc, List.count_append, h0]
      have hlen : pre.length + 1 = (pre ++ [c]).length := by simp
      have happ : (pre ++ [c]) ++ rest = pre ++ c :: rest := by simp
      have ihc := ih (pre ++ [c])
      simp only [readNewsinceGo]
      rw [if_neg hstop, hcount, hlen, ihc]
      rw [List.length_cons, List.range_succ_eq_map,
        List.find?_cons_of_neg _ (by simpa using hP0f), List.find?_map]
      have hpred : ((fun i => isStop expected size (pre ++ c :: rest) (pre.length + i)) ∘ Nat.succ) =
          (fun i => isStop expected size ((pre ++ [c]) ++ rest) ((pre ++ [c]).length + i)) := by
        funext i
        simp only [Function.comp_apply, happ]
        congr 1
        omega
      rw [← hpred]
      cases hfr : (List.range rest.length).find?
          ((fun i => isStop expected size (pre ++ c :: rest) (pre.length + i)) ∘ Nat.succ) with
      | none => simp
      | some i => simp

/-- The read loop stops at the first qualifying index of the whole stream. -/
theorem readNewsince_eq (expected size : Nat) (s : List Char) :
    readNewsince expected size s =
      match firstStop expected size s with
      | some i => s.take (i + 1) ++ synthClose
      | none => s := by
  have h := readNewsinceGo_spec expected size s []
  simp only [List.nil_append, List.count_nil, List.length_nil, Nat.zero_add] at h
  simpa [readNewsince, firstStop] using h

/-- `find?` over `List.range` returns exactly the least index satisfying the
predicate. -/
theorem rangeFind_eq_some_iff {n i : Nat} {p : Nat → Bool} :
    (List.range n).find? p = some i ↔ (i < n ∧ p i = true ∧ ∀ j < i, p j = false) := by
  induction n generalizing i with
  | zero => simp
  | succ n ihn =>
    rw [List.range_succ, List.find?_append]
    have hnone : (List.range n).find? p = none ↔ ∀ j < n, p j = false := by
      rw [List.find?_eq_none]
      constructor
      · intro h j hj
        simpa using h j (List.mem_range.mpr hj)
      · intro h x hx
        simpa using h x (List.mem_range.mp hx)
    cases hfind : (List.range n).find? p with
    | some j =>
      have hj := ihn.mp hfind
      have hred : (some j).or ([n].find? p) = some j := rfl
      rw [hred]
      simp only [Option.some.injEq]
      constructor
      · intro h
        subst h
        exact ⟨Nat.lt_succ_of_lt hj.1, hj.2.1, hj.2.2⟩
      · intro ⟨hin, hpi, hfirst⟩
        rcases Nat.lt_trichotomy j i with h | h | h
        · exact absurd hj.2.1 (by simp [hfirst j h])
        · exact h
        · exact absurd hpi (by simp [hj.2.2 i h])
    | none =>
      have hall := hnone.mp hfind
      have hred : (Option.or none ([n].find? p)) = [n].find? p := rfl
      rw [hred]
      constructor
      · intro h
        have hpi := List.find?_some h
        have hmem : i ∈ [n] := List.mem_of_find?_eq_some h
        have hin : i = n := by simpa using hmem
        subst hin
        exact ⟨Nat.lt_succ_self _, hpi, hall⟩
      · intro ⟨hin, hpi, hfirst⟩
        have hin2 : i = n := by
          rcases Nat.lt_succ_iff_lt_or_eq.mp hin with h | h
          · exact absurd hpi (by simp [hall i h])
          · exact h
        subst hin2
        simp [List.find?_cons_of_pos _ hpi]

/-- `firstStop` returns `some i` exactly when the stop condition holds at `i`
and at no earlier index. -/
theorem firstStop_eq_some_iff (expected size : Nat) (s : List Char) (i : Nat) :
    firstStop expected size s = some i ↔
      (isStop expected size s i = true ∧ ∀ j < i, isStop expected size s j = false) := by
  rw [firstStop, rangeFind_eq_some_iff]
  constructor
  · intro ⟨_, h2, h3⟩
    exact ⟨h2, h3⟩
  · intro ⟨h1, h2⟩
    have h1d := h1
    simp only [isStop, decide_eq_true_eq] at h1d
    obtain ⟨hget, -, -⟩ := h1d
    have hlt : i < s.length := by
      rcases List.getElem?_eq_some.mp hget with ⟨h, -⟩
      exact h
    exact ⟨hlt, h1, h2⟩

/-- `firstStop` returns `none` exactly when no index satisfies the stop
condition. -/
theorem firstStop_eq_none_iff (expected size : Nat) (s : List Char) :
    firstStop expected size s = none ↔ ∀ i, isStop expected size s i = false := by
  rw [firstStop, List.find?_eq_none]
  constructor
  · intro h i
    by_cases hi : i < s.length
    · simpa using h i (List.mem_range.mpr hi)
    · simp only [isStop, decide_eq_false_iff_not]
      intro hs
      obtain ⟨hget, -, -⟩ := hs
      rw [List.getElem?_eq_none (Nat.le_of_not_lt hi)] at hget
      cases hget
  · intro h x _
    simp [h x]

/-- C1: for every byte stream read by a streaming long-poll call
(`get_bundlelist_newsince` or `message_list_newsince`), the read loop
terminates exactly at the first unit equal to `]` at which the newline counter
equals the endpoint's fixed expected count (3 for the bundle-list endpoint, 5
for the messaging endpoint) and the accumulated length (including that unit)
strictly exceeds the endpoint's fixed header-length threshold (157 for
bundle-list, 178 for messaging); on termination the bytes `\n`, `]`, `\n`,
`\x7d` are appended to the accumulator, and no `]` at which the newline
counter differs from the expected count or the length is at or below the
threshold terminates the loop (when no unit qualifies the loop consumes the
whole stream and appends nothing). -/
theorem newsince_read_loop_stops_at_first_qualifying_bracket (s : List Char) :
    (bundlelistRead s = match firstStop 3 157 s with
      | some i => s.take (i + 1) ++ synthClose
      | none => s) ∧
    (messagelistRead s = match firstStop 5 178 s with
      | some i => s.take (i + 1) ++ synthClose
      | none => s) ∧
    (∀ i, firstStop 3 157 s = some i ↔
      (s[i]? = some ']' ∧ (s.take i).count '\n' = 3 ∧ 157 < i + 1 ∧
        ∀ j < i, isStop 3 157 s j = false)) ∧
    (∀ i, firstStop 5 178 s = some i ↔
      (s[i]? = some ']' ∧ (s.take i).count '\n' = 5 ∧ 178 < i + 1 ∧
        ∀ j < i, isStop 5 178 s j = false)) ∧
    (firstStop 3 157 s = none ↔ ∀ i, isStop 3 157 s i = false) ∧
    (firstStop 5 178 s = none ↔ ∀ i, isStop 5 178 s i = false) := by
  refine ⟨readNewsince_eq 3 157 s, readNewsince_eq 5 178 s, ?_, ?_,
    firstStop_eq_none_iff 3 157 s, firstStop_eq_none_iff 5 178 s⟩
  · intro i
    rw [firstStop_eq_some_iff]
    simp [isStop, and_assoc]
  · intro i
    rw [firstStop_eq_some_iff]
    simp [isStop, and_assoc]

/-- Witness for C1, on the concrete zero-row table: the first qualifying unit
is the closing `]` at index 157 and the synthetic closing bytes follow it. -/
theorem newsince_read_loop_stops_witness :
    bundlelistRead zeroRowTable = zeroRowTable.take 158 ++ synthClose := by
  have h := (newsince_read_loop_stops_at_first_qualifying_bracket zeroRowTable).1
  have hf : firstStop 3 157 zeroRowTable = some 157 := by decide
  rw [hf] at h
  exact h

/-- C3 (amended): when the complete table holds exactly one row — so that the
bytes following the row's closing `]` are exactly the true closing tokens
`\n`, `]`, `\n`, `\x7d`, which coincide with the synthetic ones — the
incremental reader reproduces the original byte string exactly, and therefore
parses and decodes to exactly the same rows.  (`H` is the endpoint's header:
157 bytes, 3 newlines; `R` is the row's bytes before its closing `]`.) -/
theorem newsince_read_of_single_row_table_is_identity
    (H R : List Char) (hn : H.count '\n' = 3) (hl : H.length = 157)
    (hR : ∀ c ∈ R, c ≠ '\n' ∧ c ≠ ']') :
    bundlelistRead (H ++ R ++ ']' :: synthClose) = H ++ R ++ ']' :: synthClose ∧
    decodeTable (bundlelistRead (H ++ R ++ ']' :: synthClose)) =
      decodeTable (H ++ R ++ ']' :: synthClose) := by
  have hfs : firstStop 3 157 (H ++ R ++ ']' :: synthClose) =
      some (H.length + R.length) := by
    rw [firstStop_eq_some_iff]
    constructor
    · simp only [isStop, decide_eq_true_eq]
      refine ⟨?_, ?_, ?_⟩
      · rw [List.getElem?_append_right (by simp)]
        simp
      · have ht : (H ++ R ++ ']' :: synthClose).take (H.length + R.length) = H ++ R :=
          List.take_left' (by simp)
        rw [ht, List.count_append, hn]
        have h0 : R.count '\n' = 0 :=
          List.count_eq_zero.mpr (fun hmem => (hR _ hmem).1 rfl)
        rw [h0]
      · omega
    · intro j hj
      simp only [isStop, decide_eq_false_iff_not]
      intro ⟨hget, hcnt, hlen⟩
      have hjH : H.length ≤ j := by omega
      have hjR : j - H.length < R.length := by omega
      rw [List.append_assoc, List.getElem?_append_right hjH,
        List.getElem?_append_left hjR] at hget
      exact (hR _ (List.getElem?_mem hget)).2 rfl
  have h1 : readNewsince 3 157 (H ++ R ++ ']' :: synthClose) =
      (H ++ R ++ ']' :: synthClose).take (H.length + R.length + 1) ++ synthClose := by
    rw [readNewsince_eq 3 157, hfs]
  have htake : (H ++ R ++ ']' :: synthClose).take (H.length + R.length + 1) =
      (H ++ R) ++ [']'] := by
    have hshape : H ++ R ++ ']' :: synthClose = ((H ++ R) ++ [']']) ++ synthClose := by
      simp
    rw [hshape]
    exact List.take_left' (by simp; omega)
  have hid : bundlelistRead (H ++ R ++ ']' :: synthClose) =
      H ++ R ++ ']' :: synthClose := by
    show readNewsince 3 157 _ = _
    rw [h1, htake]
    simp
  exact ⟨hid, by rw [hid]⟩

/-- Witness for the amended C3, on a concrete one-row table. -/
theorem newsince_read_single_row_witness :
    bundlelistRead (specimenHeader ++ specimenRowBody ++ ']' :: synthClose) =
      specimenHeader ++ specimenRowBody ++ ']' :: synthClose :=
  (newsince_read_of_single_row_table_is_identity specimenHeader specimenRowBody
    (by decide) (by decide) (by decide)).1

/-- C3 is false as stated: the complete, well-formed ZERO-row table is a
"header, zero or more newline-terminated rows, then `]`, `\n`, `\x7d`" byte
string that decodes directly to zero rows, yet feeding it through the
incremental reader (which stops at the `]` closing the empty rows array and
appends the synthetic closing) yields a buffer that is not valid JSON at
all; and on a complete TWO-row table the reader stops at the `]` closing the
first row, so its buffer decodes to one row where the input decodes to two. -/
theorem newsince_read_complete_table_counterexample :
    bundlelistRead zeroRowTable = zeroRowReadBuffer ∧
    decodeTable zeroRowTable = some [] ∧
    decodeTable zeroRowReadBuffer = none ∧
    decodeTable (bundlelistRead zeroRowTable) ≠ decodeTable zeroRowTable ∧
    bundlelistRead twoRowTable = twoRowReadBuffer ∧
    (decodeTable twoRowTable).map List.length = some 2 ∧
    (decodeTable twoRowReadBuffer).map List.length = some 1 ∧
    decodeTable (bundlelistRead twoRowTable) ≠ decodeTable twoRowTable := by
  have hb : bundlelistRead zeroRowTable = zeroRowReadBuffer := rfl
  have h1 : decodeTable zeroRowTable = some [] := rfl
  have h2 : decodeTable zeroRowReadBuffer = none := rfl
  have hb2 : bundlelistRead twoRowTable = twoRowReadBuffer := rfl
  have h3 : (decodeTable twoRowTable).map List.length = some 2 := rfl
  have h4 : (decodeTable twoRowReadBuffer).map List.length = some 1 := rfl
  refine ⟨hb, h1, h2, ?_, hb2, h3, h4, ?_⟩
  · rw [hb, h1, h2]
    simp
  · rw [hb2]
    intro h
    have h5 := congrArg (Option.map List.length) h
    rw [h3, h4] at h5
    exact absurd h5 (by decide)

/-- C8, amended: both streaming long-poll calls raise the invalid-token
condition (carrying the token and the response reason) on a 404 status,
regardless of the body; on any other non-200 status the read loop is never
entered and the call raises the HTTP-status error carrying the status and
the JSON-decoded body when the body is valid JSON, but fails with a
JSON-decode error otherwise — constructing `RhizomeHTTPStatusError` calls
`serval_response.json()`, so the body IS read and the outcome depends on it;
two valid-JSON bodies with the same parse give the same outcome. -/
theorem newsince_error_status_paths
    (token reason c1 c2 : List Char) (st : Nat) (j : JVal) :
    (st = 404 →
      get_bundlelist_newsince token ⟨st, reason, c1⟩ =
        .error (.invalidToken token reason) ∧
      message_list_newsince token ⟨st, reason, c1⟩ =
        .error (.invalidToken token reason)) ∧
    (st ≠ 200 → st ≠ 404 → jsonParse c1 = some j →
      get_bundlelist_newsince token ⟨st, reason, c1⟩ =
        .error (.httpStatusError st j) ∧
      message_list_newsince token ⟨st, reason, c1⟩ =
        .error (.httpStatusError st j)) ∧
    (st ≠ 200 → st ≠ 404 → jsonParse c1 = none →
      get_bundlelist_newsince token ⟨st, reason, c1⟩ =
        .error (.jsonDecodeError c1) ∧
      message_list_newsince token ⟨st, reason, c1⟩ =
        .error (.jsonDecodeError c1)) ∧
    (st ≠ 200 → jsonParse c1 = some j → jsonParse c2 = some j →
      get_bundlelist_newsince token ⟨st, reason, c1⟩ =
        get_bundlelist_newsince token ⟨st, reason, c2⟩ ∧
      message_list_newsince token ⟨st, reason, c1⟩ =
        message_list_newsince token ⟨st, reason, c2⟩) := by
  refine ⟨?_, ?_, ?_, ?_⟩
  · intro h404
    subst h404
    simp [get_bundlelist_newsince, message_list_newsince]
  · intro h200 h404 hj
    simp [get_bundlelist_newsince, message_list_newsince, h200, h404,
      rhizomeHTTPStatusRaise, hj]
  · intro h200 h404 hj
    simp [get_bundlelist_newsince, message_list_newsince, h200, h404,
      rhizomeHTTPStatusRaise, hj]
  · intro h200 hj1 hj2
    by_cases h404 : st = 404
    · subst h404
      simp [get_bundlelist_newsince, message_list_newsince]
    · simp [get_bundlelist_newsince, message_list_newsince, h200, h404,
        rhizomeHTTPStatusRaise, hj1, hj2]

/-- Witness for C8: a prerecorded 404 reply raises the invalid-token error
regardless of the body bytes. -/
theorem newsince_error_status_witness :
    get_bundlelist_newsince "token1".data ⟨404, "Not Found".data, "ignored".data⟩ =
      .error (.invalidToken "token1".data "Not Found".data) :=
  ((newsince_error_status_paths "token1".data "Not Found".data
    "ignored".data "other".data 404 JVal.jnull).1 rfl).1

/-- C8 is false as stated: on a 500 reply whose body is not valid JSON the
call raises a JSON-decode error (from `serval_response.json()` inside
`RhizomeHTTPStatusError.__init__`) rather than a status error, and the
outcome differs from the same reply carrying the JSON body `1` — so the
non-200 outcome is not independent of the body. -/
theorem newsince_json_decode_counterexample :
    get_bundlelist_newsince "tok".data ⟨500, "ISE".data, "oops".data⟩ =
      .error (.jsonDecodeError "oops".data) ∧
    get_bundlelist_newsince "tok".data ⟨500, "ISE".data, "1".data⟩ =
      .error (.httpStatusError 500 (JVal.jint 1)) ∧
    get_bundlelist_newsince "tok".data ⟨500, "ISE".data, "oops".data⟩ ≠
      get_bundlelist_newsince "tok".data ⟨500, "ISE".data, "1".data⟩ ∧
    (∀ st j, NewsinceErr.jsonDecodeError "oops".data ≠ .httpStatusError st j) := by
  have e1 : get_bundlelist_newsince "tok".data ⟨500, "ISE".data, "oops".data⟩ =
      .error (.jsonDecodeError "oops".data) := rfl
  have e2 : get_bundlelist_newsince "tok".data ⟨500, "ISE".data, "1".data⟩ =
      .error (.httpStatusError 500 (JVal.jint 1)) := rfl
  refine ⟨e1, e2, ?_, ?_⟩
  · rw [e1, e2]
    intro h
    injection h with h2
    exact NewsinceErr.noConfusion h2
  · intro st j h
    exact NewsinceErr.noConfusion h

/-! ### Properties of the Python-dict model and decode_json_table -/

/-- Inserting a fresh key appends it. -/
theorem dictInsert_of_not_mem {α β : Type} [DecidableEq α] (k : α) (v : β)
    (l : List (α × β)) (h : k ∉ l.map Prod.fst) :
    dictInsert k v l = l ++ [(k, v)] := by
  induction l with
  | nil => rfl
  | cons kv rest ih =>
    simp only [List.map_cons, List.mem_cons] at h
    push_neg at h
    simp only [dictInsert]
    rw [if_neg (fun he => h.1 he.symm), ih h.2]
    rfl

/-- Key insertion keeps the key list when the key is present. -/
theorem dictInsert_keys_of_mem {α β : Type} [DecidableEq α] (k : α) (v : β)
    (l : List (α × β)) (h : k ∈ l.map Prod.fst) :
    (dictInsert k v l).map Prod.fst = l.map Prod.fst := by
  induction l with
  | nil => cases h
  | cons kv rest ih =>
    simp only [dictInsert]
    by_cases he : kv.1 = k
    · rw [if_pos he]
      simp [he]
    · rw [if_neg he]
      simp only [List.map_cons, List.mem_cons] at h
      rcases h with h | h
      · exact absurd h.symm he
      · simp [ih h]

/-- Folding dict insertion over pairs with globally distinct keys just
appends the pairs. -/
theorem foldl_dictInsert_nodup {α β : Type} [DecidableEq α] :
    ∀ (l acc : List (α × β)), (((acc ++ l).map Prod.fst).Nodup) →
      l.foldl (fun a kv => dictInsert kv.1 kv.2 a) acc = acc ++ l := by
  intro l
  induction l with
  | nil => intro acc _; simp
  | cons kv rest ih =>
    intro acc hnd
    have hmaps : (acc ++ kv :: rest).map Prod.fst =
        acc.map Prod.fst ++ kv.1 :: rest.map Prod.fst := by simp
    rw [hmaps] at hnd
    have hdis := (List.nodup_append.mp hnd).2.2
    have hfresh : kv.1 ∉ acc.map Prod.fst := by
      intro hmem
      exact hdis hmem (List.mem_cons_self kv.1 _)
    have hstep : (kv :: rest).foldl (fun a p => dictInsert p.1 p.2 a) acc =
        rest.foldl (fun a p => dictInsert p.1 p.2 a) (acc ++ [kv]) := by
      simp [List.foldl_cons, dictInsert_of_not_mem kv.1 kv.2 acc hfresh]
    rw [hstep, ih (acc ++ [kv]) (by simpa using hnd)]
    simp

/-- `dict(pairs)` with pairwise distinct keys is the pair list itself. -/
theorem pyDictOf_nodup {α β : Type} [DecidableEq α] (l : List (α × β))
    (h : (l.map Prod.fst).Nodup) : pyDictOf l = l := by
  have := foldl_dictInsert_nodup l [] (by simpa using h)
  simpa [pyDictOf] using this

/-- Reading the zip of a duplicate-free header and an equally long row back in
header order recovers the row. -/
theorem encodeRow_zip {κ β : Type} [DecidableEq κ] :
    ∀ (h : List κ) (r : List β), h.Nodup → r.length = h.length →
      encodeRow h (h.zip r) = r := by
  intro h
  induction h with
  | nil =>
    intro r _ hr
    have hr0 : r = [] := by simpa [List.length_eq_zero] using hr
    simp [encodeRow, hr0]
  | cons f h2 ih =>
    intro r hnd hlen
    cases r with
    | nil => simp at hlen
    | cons v r2 =>
      simp only [List.zip_cons_cons, encodeRow, List.filterMap_cons]
      have h1 : alookup f ((f, v) :: h2.zip r2) = some v := by simp [alookup]
      rw [h1]
      have hcongr : h2.filterMap (fun x => alookup x ((f, v) :: h2.zip r2)) =
          h2.filterMap (fun x => alookup x (h2.zip r2)) := by
        apply List.filterMap_congr
        intro x hx
        have hne : ¬ f = x := fun he => (List.nodup_cons.mp hnd).1 (he ▸ hx)
        simp [alookup, hne]
      rw [hcongr]
      have := ih r2 (List.nodup_cons.mp hnd).2 (by simpa using hlen)
      simp [encodeRow] at this
      rw [this]

/-- C6: for every header of unique field names and every list of rows each of
the header's length, decoding with `decode_json_table` and re-encoding each
decoded mapping back in header order reproduces the original rows in the same
order. -/
theorem decode_json_table_roundtrip {κ β : Type} [DecidableEq κ]
    (header : List κ) (rows : List (List β)) (hnd : header.Nodup)
    (hlen : ∀ r ∈ rows, r.length = header.length) :
    (decode_json_table header rows).map (encodeRow header) = rows := by
  unfold decode_json_table
  rw [List.map_map]
  have hrow : ∀ r ∈ rows,
      (encodeRow header ∘ fun row => pyDictOf (header.zip row)) r = r := by
    intro r hr
    have hkeys : (header.zip r).map Prod.fst = header :=
      List.map_fst_zip header r (le_of_eq (hlen r hr).symm)
    simp only [Function.comp_apply]
    rw [pyDictOf_nodup _ (by rw [hkeys]; exact hnd)]
    exact encodeRow_zip header r hnd (hlen r hr)
  calc rows.map (encodeRow header ∘ fun row => pyDictOf (header.zip row)) =
      rows.map id := List.map_congr_left hrow
    _ = rows := List.map_id rows

/-- Witness for C6 on a concrete two-column, two-row table. -/
theorem decode_json_table_roundtrip_witness :
    (decode_json_table ["a", "b"] [[1, 2], [3, 4]]).map (encodeRow ["a", "b"]) =
      [[1, 2], [3, 4]] :=
  decode_json_table_roundtrip ["a", "b"] [[1, 2], [3, 4]] (by decide)
    (by intro r hr; fin_cases hr <;> rfl)

/-- The key list after a dict insertion. -/
theorem dictInsert_keys {α β : Type} [DecidableEq α] (k : α) (v : β)
    (l : List (α × β)) :
    (dictInsert k v l).map Prod.fst =
      if k ∈ l.map Prod.fst then l.map Prod.fst else l.map Prod.fst ++ [k] := by
  by_cases h : k ∈ l.map Prod.fst
  · rw [if_pos h, dictInsert_keys_of_mem k v l h]
  · rw [if_neg h, dictInsert_of_not_mem k v l h]
    simp

/-- Folding dict insertion preserves duplicate-freedom of the key list. -/
theorem foldl_dictInsert_keys_nodup {α β : Type} [DecidableEq α] :
    ∀ (l acc : List (α × β)), ((acc.map Prod.fst).Nodup) →
      ((l.foldl (fun a kv => dictInsert kv.1 kv.2 a) acc).map Prod.fst).Nodup := by
  intro l
  induction l with
  | nil => intro acc hnd; exact hnd
  | cons kv rest ih =>
    intro acc hnd
    rw [List.foldl_cons]
    apply ih
    rw [dictInsert_keys]
    by_cases h : kv.1 ∈ acc.map Prod.fst
    · rwa [if_pos h]
    · rw [if_neg h]
      simp [List.nodup_append, hnd, h]

/-- The keys of the dict are exactly the keys fed to the fold. -/
theorem foldl_dictInsert_keys_mem {α β : Type} [DecidableEq α] :
    ∀ (l acc : List (α × β)) (x : α),
      (x ∈ (l.foldl (fun a kv => dictInsert kv.1 kv.2 a) acc).map Prod.fst ↔
        x ∈ acc.map Prod.fst ∨ x ∈ l.map Prod.fst) := by
  intro l
  induction l with
  | nil => intro acc x; simp
  | cons kv rest ih =>
    intro acc x
    rw [List.foldl_cons, ih]
    rw [dictInsert_keys]
    by_cases h : kv.1 ∈ acc.map Prod.fst
    · rw [if_pos h]
      simp only [List.map_cons, List.mem_cons]
      constructor
      · rintro (hx | hx)
        · exact Or.inl hx
        · exact Or.inr (Or.inr hx)
      · rintro (hx | hx | hx)
        · exact Or.inl hx
        · exact Or.inl (hx ▸ h)
        · exact Or.inr hx
    · rw [if_neg h]
      simp only [List.mem_append, List.mem_singleton, List.map_cons, List.mem_cons]
      tauto

/-- The size of the dict built from pairs is the number of distinct keys. -/
theorem foldl_dictInsert_length {α β : Type} [DecidableEq α] :
    ∀ (l acc : List (α × β)), ((acc.map Prod.fst).Nodup) →
      (l.foldl (fun a kv => dictInsert kv.1 kv.2 a) acc).length =
        ((acc ++ l).map Prod.fst).toFinset.card := by
  intro l
  induction l with
  | nil =>
    intro acc hnd
    simp [List.toFinset_card_of_nodup hnd]
  | cons kv rest ih =>
    intro acc hnd
    rw [List.foldl_cons]
    by_cases hmem : kv.1 ∈ acc.map Prod.fst
    · have hkeys := dictInsert_keys_of_mem kv.1 kv.2 acc hmem
      rw [ih _ (by rw [hkeys]; exact hnd)]
      congr 1
      simp only [List.map_append, List.toFinset_append, hkeys, List.map_cons,
        List.toFinset_cons]
      rw [Finset.union_insert]
      rw [Finset.insert_eq_self.mpr]
      exact Finset.mem_union_left _ (List.mem_toFinset.mpr hmem)
    · rw [dictInsert_of_not_mem _ _ _ hmem]
      have hnd2 : (((acc ++ [kv]).map Prod.fst)).Nodup := by
        simp [List.nodup_append, hnd, hmem]
      rw [ih _ hnd2]
      congr 1
      simp

/-- The keys of `pyDictOf l` are duplicate-free. -/
theorem pyDictOf_keys_nodup {α β : Type} [DecidableEq α] (l : List (α × β)) :
    ((pyDictOf l).map Prod.fst).Nodup :=
  foldl_dictInsert_keys_nodup l [] (by simp)

/-- Membership in the keys of `pyDictOf l`. -/
theorem pyDictOf_keys_mem {α β : Type} [DecidableEq α] (l : List (α × β)) (x : α) :
    x ∈ (pyDictOf l).map Prod.fst ↔ x ∈ l.map Prod.fst := by
  rw [pyDictOf, foldl_dictInsert_keys_mem]
  simp

/-- The size of `pyDictOf l` is the number of distinct keys of `l`. -/
theorem pyDictOf_length {α β : Type} [DecidableEq α] (l : List (α × β)) :
    (pyDictOf l).length = (l.map Prod.fst).toFinset.card := by
  have := foldl_dictInsert_length l [] (by simp)
  simpa [pyDictOf] using this

/-- The keys of a header/row zip are the first `min` header fields. -/
theorem map_fst_zip_eq_take {κ β : Type} :
    ∀ (h : List κ) (r : List β),
      (h.zip r).map Prod.fst = h.take (min h.length r.length) := by
  intro h
  induction h with
  | nil => intro r; simp
  | cons f h2 ih =>
    intro r
    cases r with
    | nil => simp
    | cons v r2 =>
      simp only [List.zip_cons_cons, List.map_cons, List.length_cons,
        Nat.succ_min_succ, List.take_succ_cons]
      rw [ih]

/-- `zip` only sees each list up to the other's length. -/
theorem zip_eq_zip_take {κ β : Type} :
    ∀ (h : List κ) (r : List β),
      h.zip r = (h.take r.length).zip (r.take h.length) := by
  intro h
  induction h with
  | nil => intro r; simp
  | cons f h2 ih =>
    intro r
    cases r with
    | nil => simp
    | cons v r2 =>
      simp only [List.zip_cons_cons, List.length_cons, List.take_succ_cons]
      rw [ih]

/-- A list's distinct-element count equals its length exactly when it has no
duplicates. -/
theorem toFinset_card_eq_length_iff {α : Type} [DecidableEq α] (l : List α) :
    l.toFinset.card = l.length ↔ l.Nodup := by
  constructor
  · intro h
    rw [List.card_toFinset] at h
    have heq := List.Sublist.eq_of_length (List.dedup_sublist l) h
    rw [← heq]
    exact List.nodup_dedup l
  · intro h
    exact List.toFinset_card_of_nodup h

/-- C10: `decode_json_table` is total on mismatched rows — it maps every row,
in order, to a mapping (never raising); each row's mapping holds at most
`min(len(header), len(row))` entries, exactly that many iff the truncated
header has no repeated field names; its keys are exactly the first
`min(len(header), len(row))` header fields, so row entries beyond the header
are dropped and a short row's mapping misses the trailing header fields. -/
theorem decode_json_table_total_on_mismatched_rows {κ β : Type} [DecidableEq κ]
    (header : List κ) (rows : List (List β)) (row : List β) :
    decode_json_table header rows = rows.map (fun r => pyDictOf (header.zip r)) ∧
    ((pyDictOf (header.zip row)).map Prod.fst).Nodup ∧
    (∀ f, f ∈ (pyDictOf (header.zip row)).map Prod.fst ↔
      f ∈ header.take (min header.length row.length)) ∧
    (pyDictOf (header.zip row)).length ≤ min header.length row.length ∧
    ((pyDictOf (header.zip row)).length = min header.length row.length ↔
      (header.take (min header.length row.length)).Nodup) ∧
    pyDictOf (header.zip row) =
      pyDictOf ((header.take row.length).zip (row.take header.length)) := by
  have hlt : (header.take (min header.length row.length)).length =
      min header.length row.length := by
    rw [List.length_take]
    omega
  refine ⟨rfl, pyDictOf_keys_nodup _, ?_, ?_, ?_, ?_⟩
  · intro f
    rw [pyDictOf_keys_mem, map_fst_zip_eq_take]
  · rw [pyDictOf_length, map_fst_zip_eq_take]
    calc (header.take (min header.length row.length)).toFinset.card ≤
        (header.take (min header.length row.length)).length :=
          List.toFinset_card_le _
      _ = min header.length row.length := hlt
  · rw [pyDictOf_length, map_fst_zip_eq_take]
    nth_rewrite 2 [← hlt]
    exact toFinset_card_eq_length_iff _
  · rw [← zip_eq_zip_take]

/-! ### Properties of the string-splitting models -/

/-- `takeWhile` of a satisfying prefix followed by a failing element. -/
theorem takeWhile_append_cons {α : Type} (pred : α → Bool) :
    ∀ (L : List α) (c : α) (rest : List α), (∀ x ∈ L, pred x = true) → pred c = false →
      (L ++ c :: rest).takeWhile pred = L := by
  intro L
  induction L with
  | nil =>
    intro c rest _ hc
    simp [List.takeWhile_cons, hc]
  | cons a L2 ih =>
    intro c rest hL hc
    have ha : pred a = true := hL a (by simp)
    simp only [List.cons_append, List.takeWhile_cons, ha]
    rw [ih c rest (fun x hx => hL x (by simp [hx])) hc]
    simp

/-- `split("\0")[0]` of a NUL-free prefix followed by a NUL. -/
theorem pySplitHead_prefix_nul (p s : List Char) (hp : '\x00' ∉ p) :
    pySplitHead '\x00' (p ++ '\x00' :: s) = p := by
  apply takeWhile_append_cons
  · intro x hx
    simp only [decide_eq_true_eq]
    exact fun he => hp (he ▸ hx)
  · simp

/-- The split scan over a separator-free list yields one piece. -/
theorem pySplitCharGo_no_sep (sep : Char) :
    ∀ (k acc : List Char), sep ∉ k →
      pySplitCharGo sep k acc = [acc.reverse ++ k] := by
  intro k
  induction k with
  | nil => intro acc _; simp [pySplitCharGo]
  | cons c rest ih =>
    intro acc hk
    have hc : ¬ c = sep := fun he => hk (by simp [he])
    simp only [pySplitCharGo, if_neg hc]
    rw [ih (c :: acc) (fun hmem => hk (by simp [hmem]))]
    simp

/-- The split scan emits a piece at the first separator. -/
theorem pySplitCharGo_sep (sep : Char) :
    ∀ (k acc rest : List Char), sep ∉ k →
      pySplitCharGo sep (k ++ sep :: rest) acc =
        (acc.reverse ++ k) :: pySplitCharGo sep rest [] := by
  intro k
  induction k with
  | nil =>
    intro acc rest _
    simp [pySplitCharGo]
  | cons c k2 ih =>
    intro acc rest hk
    have hc : ¬ c = sep := fun he => hk (by simp [he])
    simp only [List.cons_append, pySplitCharGo, if_neg hc, List.append_eq]
    rw [ih (c :: acc) rest (fun hmem => hk (by simp [hmem]))]
    simp

/-- `split(sep)` of a separator-free string is that string alone. -/
theorem pySplitChar_no_sep (sep : Char) (line : List Char) (h : sep ∉ line) :
    pySplitChar sep line = [line] := by
  simpa [pySplitChar] using pySplitCharGo_no_sep sep line [] h

/-- `split(sep)` of `k sep v` with separator-free `k`, `v` is `[k, v]`. -/
theorem pySplitChar_one (sep : Char) (k v : List Char)
    (hk : sep ∉ k) (hv : sep ∉ v) :
    pySplitChar sep (k ++ sep :: v) = [k, v] := by
  rw [pySplitChar, pySplitCharGo_sep sep k [] v hk]
  rw [show pySplitCharGo sep v [] = pySplitChar sep v from rfl,
    pySplitChar_no_sep sep v hv]
  simp

/-- `split(sep)` of `k sep v sep w` is `[k, v, w]`: Python's `split` cuts at
every separator, not just the first. -/
theorem pySplitChar_two (sep : Char) (k v w : List Char)
    (hk : sep ∉ k) (hv : sep ∉ v) (hw : sep ∉ w) :
    pySplitChar sep (k ++ sep :: (v ++ sep :: w)) = [k, v, w] := by
  rw [pySplitChar, pySplitCharGo_sep sep k [] _ hk]
  rw [show pySplitCharGo sep (v ++ sep :: w) [] = pySplitChar sep (v ++ sep :: w) from rfl,
    pySplitChar_one sep v w hv hw]
  simp

/-- The splitlines scan passes over a non-boundary character. -/
theorem pySplitlinesGo_cons_no_break (c : Char) (rest acc : List Char)
    (h : pyLineBreak c = false) :
    pySplitlinesGo (c :: rest) acc = pySplitlinesGo rest (c :: acc) := by
  rw [pySplitlinesGo.eq_def]
  split
  · rename_i heq; cases heq
  · rename_i h1 h2
    injection h2 with hc hrest
    subst hc
    simp [pyLineBreak] at h
  · rename_i x1 x2 x3 c2 rest2 hnotrn heq
    injection heq with hc hrest
    subst hc
    subst hrest
    rw [if_neg (by simp [h])]

/-- The splitlines scan emits the accumulated line at a newline. -/
theorem pySplitlinesGo_cons_newline (rest acc : List Char) :
    pySplitlinesGo ('\n' :: rest) acc = acc.reverse :: pySplitlinesGo rest [] := by
  rw [pySplitlinesGo.eq_def]
  split
  · rename_i heq; cases heq
  · rename_i h1 h2
    injection h2 with hc hrest
    exact absurd hc (by decide)
  · rename_i x1 x2 x3 c2 rest2 hnotrn heq
    injection heq with hc hrest
    subst hrest
    rw [← hc]
    rw [if_pos (by decide)]

/-- Splitting off one newline-terminated, boundary-free line. -/
theorem pySplitlinesGo_line :
    ∀ (L rest acc : List Char), (∀ c ∈ L, pyLineBreak c = false) →
      pySplitlinesGo (L ++ '\n' :: rest) acc =
        (acc.reverse ++ L) :: pySplitlinesGo rest [] := by
  intro L
  induction L with
  | nil =>
    intro rest acc _
    simpa using pySplitlinesGo_cons_newline rest acc
  | cons c L2 ih =>
    intro rest acc hL
    have hc : pyLineBreak c = false := hL c (by simp)
    rw [List.cons_append, pySplitlinesGo_cons_no_break c _ _ hc,
      ih rest (c :: acc) (fun x hx => hL x (by simp [hx]))]
    simp

/-- `splitlines` of a concatenation of newline-terminated, boundary-free lines
recovers exactly those lines (the trailing newline adds no empty line). -/
theorem pySplitlines_concat :
    ∀ (lines : List (List Char)), (∀ L ∈ lines, ∀ c ∈ L, pyLineBreak c = false) →
      pySplitlines ((lines.map (fun L => L ++ ['\n'])).flatten) = lines := by
  intro lines
  induction lines with
  | nil => intro _; rfl
  | cons L rest ih =>
    intro h
    have hshape : ((L :: rest).map (fun x => x ++ ['\n'])).flatten =
        L ++ '\n' :: ((rest.map (fun x => x ++ ['\n'])).flatten) := by
      simp
    rw [pySplitlines, hshape,
      pySplitlinesGo_line L _ [] (h L (by simp))]
    simp only [List.reverse_nil, List.nil_append, List.cons.injEq, true_and]
    exact ih (fun x hx c hc => h x (by simp [hx]) c hc)

/-! ### The manifest parser's behaviour -/

/-- Mapping two functions over one list yields pointwise-related lists. -/
theorem forall₂_map_map {α β γ : Type} (R : β → γ → Prop) (f : α → β) (g : α → γ) :
    ∀ (l : List α), (∀ x ∈ l, R (f x) (g x)) → List.Forall₂ R (l.map f) (l.map g) := by
  intro l
  induction l with
  | nil => intro _; exact List.Forall₂.nil
  | cons x rest ih =>
    intro h
    exact List.Forall₂.cons (h x (by simp)) (ih (fun y hy => h y (by simp [hy])))

/-- Accumulating well-parsed lines with globally fresh keys appends their
entries in order. -/
theorem manifestUpdateGo_ok
    (lineParse : List Char → Except PyErr (List Char × PyVal)) :
    ∀ {lines : List (List Char)} {kvs : List (List Char × PyVal)},
      List.Forall₂ (fun line kv => lineParse line = .ok kv) lines kvs →
      ∀ (acc : List (List Char × PyVal)), (((acc ++ kvs).map Prod.fst).Nodup) →
      manifestUpdateGo lineParse lines acc = .ok (acc ++ kvs) := by
  intro lines kvs hF
  induction hF with
  | nil => intro acc _; simp [manifestUpdateGo]
  | cons hpair hrest ih =>
    rename_i line kv lines2 kvs2
    intro acc hnd
    simp only [manifestUpdateGo, hpair]
    have hnd2 := hnd
    rw [List.map_append] at hnd2
    have hdis := (List.nodup_append.mp hnd2).2.2
    have hfresh : kv.1 ∉ acc.map Prod.fst := fun hmem =>
      hdis hmem (by rw [List.map_cons]; exact List.mem_cons_self _ _)
    rw [dictInsert_of_not_mem _ _ _ hfresh]
    rw [ih (acc ++ [kv]) (by simpa using hnd)]
    simp

/-- C2 (amended): `Manifest.update` splits each line at EVERY `=` character
and unpacks the pieces into exactly two names, so a line with exactly one `=`
yields that key/value pair, while a line with no `=` — or a line whose value
itself contains `=` — raises a plain Python `ValueError` from tuple unpacking
(there is no `MalformedManifestLine` condition anywhere in the code).  Both
revisions behave identically. -/
theorem manifest_line_split_on_every_equals
    (k v w line : List Char) (hk : '=' ∉ k) (hv : '=' ∉ v) (hw : '=' ∉ w)
    (hline : '=' ∉ line) :
    (k ∉ intFields →
      parseManifestLine (k ++ '=' :: v) = .ok (k, .vstr v)) ∧
    (∀ n : Int, k ∈ intFields → pyIntParse v = some n →
      parseManifestLine (k ++ '=' :: v) = .ok (k, .vint n)) ∧
    (parseManifestLineU (k ++ '=' :: v) = .ok (k, autocast v)) ∧
    (parseManifestLine line = .error (.unpackMismatch 1)) ∧
    (parseManifestLine (k ++ '=' :: (v ++ '=' :: w)) = .error (.unpackMismatch 3)) ∧
    (parseManifestLineU (k ++ '=' :: (v ++ '=' :: w)) = .error (.unpackMismatch 3)) := by
  refine ⟨?_, ?_, ?_, ?_, ?_, ?_⟩
  · intro hf
    have hfb : intFields.contains k = false := by simpa using hf
    simp only [parseManifestLine, pySplitChar_one '=' k v hk hv, manifestAutocast, hfb]
    rfl
  · intro n hf hn
    have hfb : intFields.contains k = true := by simpa using hf
    simp only [parseManifestLine, pySplitChar_one '=' k v hk hv, manifestAutocast,
      hfb, hn]
    rfl
  · simp [parseManifestLineU, pySplitChar_one '=' k v hk hv]
  · simp [parseManifestLine, pySplitChar_no_sep '=' line hline]
  · simp [parseManifestLine, pySplitChar_two '=' k v w hk hv hw]
  · simp [parseManifestLineU, pySplitChar_two '=' k v w hk hv hw]

/-- Witness for the amended C2: a one-`=` line parses, a `=`-free line and a
two-`=` line raise the unpack `ValueError`. -/
theorem manifest_line_split_witness :
    parseManifestLine ("name".data ++ '=' :: "x".data) =
      .ok ("name".data, .vstr "x".data) :=
  (manifest_line_split_on_every_equals "name".data "x".data [] []
    (by decide) (by decide) (by decide) (by decide)).1 (by decide)

/-- C2 is false as stated: on the line `id=a=b` — whose value contains `=` —
the spec-side first-split would return the whole value `a=b`, but the code
splits at every `=`, gets three pieces, and raises the unpack `ValueError`
(in both revisions); no entry is produced. -/
theorem manifest_line_first_split_counterexample :
    manifestUpdate "id=a=b\x00sig".data = .error (.unpackMismatch 3) ∧
    manifestUpdateU "id=a=b\x00sig".data = .error (.unpackMismatch 3) ∧
    specSplitFirstEq "id=a=b".data = some ("id".data, "a=b".data) :=
  ⟨rfl, rfl, rfl⟩

/-- C5: a manifest blob of `n` well-formed `key=value` lines followed by a NUL
byte and an arbitrary binary suffix parses to exactly `n` entries carrying
those keys; no byte after the first NUL influences the result; an empty
pure-manifest segment yields an empty mapping and not an error.  Both
revisions of `Manifest.update` are covered; "well-formed" requires
boundary-free, NUL-free, `=`-free keys and values, pairwise distinct keys,
and (for the current revision, whose field-typed cast propagates `int()`
errors) integer-parseable values on the integer-typed fields. -/
theorem manifest_update_counts_and_ignores_suffix
    (pairs : List (List Char × List Char)) (suffix s1 s2 : List Char)
    (hchar : ∀ kv ∈ pairs, ∀ c ∈ kv.1 ++ kv.2,
      pyLineBreak c = false ∧ c ≠ '\x00' ∧ c ≠ '=')
    (hkeys : (pairs.map Prod.fst).Nodup)
    (hint : ∀ kv ∈ pairs, kv.1 ∈ intFields → (pyIntParse kv.2).isSome) :
    (∃ entries, manifestUpdate
        ((pairs.map (fun kv => kv.1 ++ '=' :: (kv.2 ++ ['\n']))).flatten ++
          '\x00' :: suffix) = .ok entries ∧
      entries.length = pairs.length ∧
      entries.map Prod.fst = pairs.map Prod.fst) ∧
    (∃ entries, manifestUpdateU
        ((pairs.map (fun kv => kv.1 ++ '=' :: (kv.2 ++ ['\n']))).flatten ++
          '\x00' :: suffix) = .ok entries ∧
      entries.length = pairs.length ∧
      entries.map Prod.fst = pairs.map Prod.fst) ∧
    (manifestUpdate ((pairs.map (fun kv => kv.1 ++ '=' :: (kv.2 ++ ['\n']))).flatten ++
        '\x00' :: s1) =
      manifestUpdate ((pairs.map (fun kv => kv.1 ++ '=' :: (kv.2 ++ ['\n']))).flatten ++
        '\x00' :: s2)) ∧
    (manifestUpdateU ((pairs.map (fun kv => kv.1 ++ '=' :: (kv.2 ++ ['\n']))).flatten ++
        '\x00' :: s1) =
      manifestUpdateU ((pairs.map (fun kv => kv.1 ++ '=' :: (kv.2 ++ ['\n']))).flatten ++
        '\x00' :: s2)) ∧
    (manifestUpdate ('\x00' :: suffix) = .ok []) ∧
    (manifestUpdateU ('\x00' :: suffix) = .ok []) := by
  have hLchar : ∀ L ∈ pairs.map (fun kv => kv.1 ++ '=' :: kv.2),
      ∀ c ∈ L, pyLineBreak c = false := by
    intro L hL c hc
    simp only [List.mem_map] at hL
    obtain ⟨kv, hkv, rfl⟩ := hL
    rcases List.mem_append.mp hc with h | h
    · exact (hchar kv hkv c (List.mem_append.mpr (Or.inl h))).1
    · rcases List.mem_cons.mp h with h | h
      · subst h; decide
      · exact (hchar kv hkv c (List.mem_append.mpr (Or.inr h))).1
  have hblobshape : (pairs.map (fun kv => kv.1 ++ '=' :: (kv.2 ++ ['\n']))).flatten =
      ((pairs.map (fun kv => kv.1 ++ '=' :: kv.2)).map (fun L => L ++ ['\n'])).flatten := by
    have hfun : (fun kv : List Char × List Char => kv.1 ++ '=' :: (kv.2 ++ ['\n'])) =
        ((fun L => L ++ ['\n']) ∘ fun kv => kv.1 ++ '=' :: kv.2) := by
      funext kv
      simp
    rw [List.map_map, ← hfun]
  have hnul : '\x00' ∉ (pairs.map (fun kv => kv.1 ++ '=' :: (kv.2 ++ ['\n']))).flatten := by
    intro hmem
    rw [List.mem_flatten] at hmem
    obtain ⟨L, hL, hcm⟩ := hmem
    simp only [List.mem_map] at hL
    obtain ⟨kv, hkv, rfl⟩ := hL
    rcases List.mem_append.mp hcm with h | h
    · exact (hchar kv hkv _ (List.mem_append.mpr (Or.inl h))).2.1 rfl
    · rcases List.mem_cons.mp h with h | h
      · exact absurd h (by decide)
      · rcases List.mem_append.mp h with h2 | h2
        · exact (hchar kv hkv _ (List.mem_append.mpr (Or.inr h2))).2.1 rfl
        · simp only [List.mem_singleton] at h2
          exact absurd h2 (by decide)
  have hsplit : ∀ (sfx : List Char),
      pySplitlines (pySplitHead '\x00'
        ((pairs.map (fun kv => kv.1 ++ '=' :: (kv.2 ++ ['\n']))).flatten ++
          '\x00' :: sfx)) = pairs.map (fun kv => kv.1 ++ '=' :: kv.2) := by
    intro sfx
    rw [pySplitHead_prefix_nul _ _ hnul, hblobshape, pySplitlines_concat _ hLchar]
  have hkeq : ∀ kv ∈ pairs, '=' ∉ kv.1 := fun kv hkv hm =>
    (hchar kv hkv _ (List.mem_append.mpr (Or.inl hm))).2.2 rfl
  have hveq : ∀ kv ∈ pairs, '=' ∉ kv.2 := fun kv hkv hm =>
    (hchar kv hkv _ (List.mem_append.mpr (Or.inr hm))).2.2 rfl
  have hF : List.Forall₂ (fun line kv => parseManifestLine line = .ok kv)
      (pairs.map (fun kv => kv.1 ++ '=' :: kv.2))
      (pairs.map (fun kv =>
        (kv.1, (manifestAutocast kv.1 kv.2).toOption.getD (.vstr kv.2)))) := by
    apply forall₂_map_map
    intro kv hkv
    simp only [parseManifestLine, pySplitChar_one '=' kv.1 kv.2 (hkeq kv hkv) (hveq kv hkv)]
    by_cases hf : kv.1 ∈ intFields
    · obtain ⟨n, hn⟩ := Option.isSome_iff_exists.mp (hint kv hkv hf)
      have hfb : intFields.contains kv.1 = true := by simpa using hf
      simp only [manifestAutocast, hfb, hn]
      rfl
    · have hfb : intFields.contains kv.1 = false := by simpa using hf
      simp only [manifestAutocast, hfb]
      rfl
  have hFU : List.Forall₂ (fun line kv => parseManifestLineU line = .ok kv)
      (pairs.map (fun kv => kv.1 ++ '=' :: kv.2))
      (pairs.map (fun kv => (kv.1, autocast kv.2))) := by
    apply forall₂_map_map
    intro kv hkv
    simp [parseManifestLineU, pySplitChar_one '=' kv.1 kv.2 (hkeq kv hkv) (hveq kv hkv)]
  have hkmap : ∀ (g : List Char × List Char → PyVal),
      ((pairs.map (fun kv => (kv.1, g kv))).map Prod.fst) = pairs.map Prod.fst := by
    intro g
    rw [List.map_map]
    rfl
  refine ⟨?_, ?_, ?_, ?_, ?_, ?_⟩
  · refine ⟨pairs.map (fun kv =>
      (kv.1, (manifestAutocast kv.1 kv.2).toOption.getD (.vstr kv.2))), ?_, ?_, ?_⟩
    · rw [manifestUpdate, hsplit suffix]
      have := manifestUpdateGo_ok parseManifestLine hF []
        (by simpa [hkmap] using hkeys)
      simpa using this
    · simp
    · exact hkmap _
  · refine ⟨pairs.map (fun kv => (kv.1, autocast kv.2)), ?_, ?_, ?_⟩
    · rw [manifestUpdateU, hsplit suffix]
      have := manifestUpdateGo_ok parseManifestLineU hFU []
        (by simpa [hkmap] using hkeys)
      simpa using this
    · simp
    · exact hkmap _
  · rw [manifestUpdate, manifestUpdate, pySplitHead_prefix_nul _ s1 hnul,
      pySplitHead_prefix_nul _ s2 hnul]
  · rw [manifestUpdateU, manifestUpdateU, pySplitHead_prefix_nul _ s1 hnul,
      pySplitHead_prefix_nul _ s2 hnul]
  · simp [manifestUpdate, pySplitHead, List.takeWhile_cons, pySplitlines,
      pySplitlinesGo, manifestUpdateGo]
  · simp [manifestUpdateU, pySplitHead, List.takeWhile_cons, pySplitlines,
      pySplitlinesGo, manifestUpdateGo]

/-- Witness for C5: a two-line manifest with a binary suffix parses to exactly
two entries with the written keys. -/
theorem manifest_update_counts_witness :
    ∃ entries, manifestUpdate "id=abc\nversion=7\x00\xffsig".data = .ok entries ∧
      entries.length = 2 ∧
      entries.map Prod.fst = ["id".data, "version".data] := by
  have h := (manifest_update_counts_and_ignores_suffix
    [("id".data, "abc".data), ("version".data, "7".data)] "\xffsig".data [] []
    (by decide) (by decide) (by decide)).1
  exact h

/-- C7: an insert or append whose HTTP reply has status 200 (where 201 was
expected) is never treated as success; it raises the duplicate-content
condition `DuplicateBundleException` carrying the bundle id parsed from the
reply manifest. -/
theorem insert_and_append_raise_duplicate_on_200 (reply : ServalResponse)
    (h200 : reply.status = 200) :
    (∀ b, rhizomeInsertReply reply ≠ .ok b) ∧
    (∀ b, rhizomeAppendReply reply ≠ .ok b) ∧
    (∀ entries v, manifestUpdate reply.text = .ok entries →
      alookup "id".data entries = some v →
      rhizomeInsertReply reply = .error (.duplicateBundle (some v)) ∧
      rhizomeAppendReply reply = .error (.duplicateBundle (some v))) := by
  have h201 : ¬ reply.status = 201 := by rw [h200]; decide
  refine ⟨?_, ?_, ?_⟩
  · intro b hb
    rw [rhizomeInsertReply, if_neg h201] at hb
    cases hb
  · intro b hb
    rw [rhizomeAppendReply, if_neg h201] at hb
    cases hb
  · intro entries v hent hid
    constructor
    · rw [rhizomeInsertReply, if_neg h201, handle_bundle_error, if_pos h200, hent]
      simp [hid]
    · rw [rhizomeAppendReply, if_neg h201, handle_bundle_error, if_pos h200, hent]
      simp [hid]

/-- Witness for C7: a prerecorded 200 reply to an insert raises the duplicate
condition with the id from the reply manifest. -/
theorem insert_duplicate_on_200_witness :
    rhizomeInsertReply ⟨200, "id=abc\x00sig".data, []⟩ =
      .error (.duplicateBundle (some (.vstr "abc".data))) :=
  ((insert_and_append_raise_duplicate_on_200 ⟨200, "id=abc\x00sig".data, []⟩ rfl).2.2
    [("id".data, .vstr "abc".data)] (.vstr "abc".data) rfl rfl).1

/-! ### The scalar auto-cast -/

/-- C4, amended: only the EARLIER revision's value-level `autocast`
(`src/src/pyserval/util.py`) attempts integer parse, then float parse, then
boolean parse (only the spellings `true`/`True` and `false`/`False`), else
leaves the string, the first success winning — in particular `"3"` casts to
integer 3, `"3.5"` to the float 3.5 (exact decimal 35/10¹), `"True"` to
boolean true, `"0"` to integer 0 (not boolean false), `"hello"` stays the
string `"hello"`, and `""` stays the string `""`.  The CURRENT revision's
`Manifest.autocast` (`pyserval/lowlevel/rhizome.py`) instead casts by field
name: the five fields of `Manifest._types` are cast with `int()` — whose
`ValueError` propagates, with no float or boolean fallback — and every other
field's value stays a string. -/
theorem autocast_value_level_vs_field_typed (s field value : List Char) :
    (∀ n, pyIntParse s = some n → autocast s = .vint n) ∧
    (∀ m e, pyIntParse s = none → pyFloatParse s = some (m, e) →
      autocast s = .vfloat m e) ∧
    (∀ b, pyIntParse s = none → pyFloatParse s = none → boolify s = some b →
      autocast s = .vbool b) ∧
    (pyIntParse s = none → pyFloatParse s = none → boolify s = none →
      autocast s = .vstr s) ∧
    autocast "3".data = .vint 3 ∧
    autocast "3.5".data = .vfloat 35 1 ∧
    autocast "True".data = .vbool true ∧
    autocast "0".data = .vint 0 ∧
    autocast "hello".data = .vstr "hello".data ∧
    autocast "".data = .vstr "".data ∧
    (field ∉ intFields → manifestAutocast field value = .ok (.vstr value)) ∧
    (∀ n, field ∈ intFields → pyIntParse value = some n →
      manifestAutocast field value = .ok (.vint n)) ∧
    (field ∈ intFields → pyIntParse value = none →
      manifestAutocast field value = .error (.intCastError value)) := by
  refine ⟨?_, ?_, ?_, ?_, by decide, by decide, by decide, by decide,
    by decide, by decide, ?_, ?_, ?_⟩
  · intro n h
    simp [autocast, h]
  · intro m e h1 h2
    simp [autocast, h1, h2]
  · intro b h1 h2 h3
    simp [autocast, h1, h2, h3]
  · intro h1 h2 h3
    simp [autocast, h1, h2, h3]
  · intro hf
    simp [manifestAutocast, hf]
  · intro n hf hn
    simp [manifestAutocast, hf, hn]
  · intro hf hn
    simp [manifestAutocast, hf, hn]

/-- Witness for C4 at the input `"3.5"`: under the earlier revision the
integer parse fails and the float parse wins, while the current revision
leaves `"3.5"` a string for the untyped field `name`. -/
theorem autocast_value_level_vs_field_typed_witness :
    autocast "3.5".data = .vfloat 35 1 ∧
    manifestAutocast "name".data "3.5".data = .ok (.vstr "3.5".data) := by
  have h := autocast_value_level_vs_field_typed "3.5".data "name".data "3.5".data
  exact ⟨h.2.2.2.2.2.1, h.2.2.2.2.2.2.2.2.2.2.1 (by decide)⟩

/-- C4 is false as stated of the CURRENT revision it cites: on the untyped
field `name`, `Manifest.autocast` leaves `"3.5"` and `"True"` as strings (no
float or boolean parse is ever attempted), and on the typed field `version`
the value `"3.5"` makes `int()` raise a `ValueError` that propagates instead
of falling back — all unlike the earlier revision's value-level `autocast`. -/
theorem autocast_field_typed_counterexample :
    parseManifestLine "name=3.5".data = .ok ("name".data, .vstr "3.5".data) ∧
    PyVal.vstr "3.5".data ≠ PyVal.vfloat 35 1 ∧
    parseManifestLine "name=True".data = .ok ("name".data, .vstr "True".data) ∧
    PyVal.vstr "True".data ≠ PyVal.vbool true ∧
    parseManifestLine "version=3.5".data = .error (.intCastError "3.5".data) ∧
    parseManifestLineU "name=3.5".data = .ok ("name".data, .vfloat 35 1) ∧
    parseManifestLineU "version=3.5".data = .ok ("version".data, .vfloat 35 1) := by
  exact ⟨rfl, by decide, rfl, by decide, rfl, rfl, rfl⟩

/-! ### Rendered values re-parse to themselves -/

/-- A digit value below 10 renders to a digit character carrying it. -/
theorem digitChar_val : ∀ d : Nat, d < 10 →
    ((Nat.digitChar d).toNat - 48 = d ∧ (Nat.digitChar d).isDigit = true) := by
  intro d hd
  interval_cases d <;> exact ⟨rfl, rfl⟩

/-- Folding the digit accumulator over rendered digits computes the value. -/
theorem digitsVal_rev_map : ∀ (ds : List Nat), (∀ d ∈ ds, d < 10) → ∀ (a : Nat),
    List.foldl (fun acc c => 10 * acc + (c.toNat - 48)) a
        ((ds.map Nat.digitChar).reverse) =
      a * 10 ^ ds.length + Nat.ofDigits 10 ds := by
  intro ds
  induction ds with
  | nil =>
    intro _ a
    simp [Nat.ofDigits_nil]
  | cons d tl ih =>
    intro h a
    simp only [List.map_cons, List.reverse_cons]
    rw [List.foldl_append, ih (fun x hx => h x (by simp [hx])) a]
    simp only [List.foldl_cons, List.foldl_nil]
    rw [(digitChar_val d (h d (by simp))).1, Nat.ofDigits_cons]
    simp only [List.length_cons]
    ring

/-- The rendered digit characters of `n` evaluate back to `n`. -/
theorem digitsVal_natDigitChars (n : Nat) : digitsVal (natDigitChars n) = n := by
  rw [digitsVal, natDigitChars,
    digitsVal_rev_map (Nat.digits 10 n) (fun d hd => Nat.digits_lt_base (by omega) hd) 0]
  simp [Nat.ofDigits_digits]

/-- `str(n)` evaluates back to `n`. -/
theorem digitsVal_natRender (n : Nat) : digitsVal (natRender n) = n := by
  by_cases h : n = 0
  · subst h; decide
  · rw [natRender, if_neg h]
    exact digitsVal_natDigitChars n

/-- Every character of `natDigitChars n` is a digit. -/
theorem natDigitChars_all_digits (n : Nat) :
    ∀ c ∈ natDigitChars n, c.isDigit = true := by
  intro c hc
  rw [natDigitChars, List.mem_reverse, List.mem_map] at hc
  obtain ⟨d, hd, rfl⟩ := hc
  exact (digitChar_val d (Nat.digits_lt_base (by omega) hd)).2

/-- Every character of `str(n)` is a digit, and the rendering is nonempty. -/
theorem natRender_digits (n : Nat) :
    (∀ c ∈ natRender n, c.isDigit = true) ∧ natRender n ≠ [] := by
  by_cases h : n = 0
  · subst h
    exact ⟨by decide, by decide⟩
  · rw [natRender, if_neg h]
    refine ⟨natDigitChars_all_digits n, ?_⟩
    rw [natDigitChars]
    simp only [ne_eq, List.reverse_eq_nil_iff, List.map_eq_nil_iff]
    exact Nat.digits_ne_nil_iff_ne_zero.mpr h

/-- The digit-string parse accepts `str(n)` and returns `n`. -/
theorem pyNatParse_natRender (n : Nat) : pyNatParse (natRender n) = some n := by
  rw [pyNatParse, if_pos, digitsVal_natRender]
  refine ⟨(natRender_digits n).2, ?_⟩
  rw [List.all_eq_true]
  intro c hc
  exact (natRender_digits n).1 c hc

/-- A digit character is not a sign character. -/
theorem isDigit_not_sign (c : Char) (h : c.isDigit = true) :
    ¬ c = '-' ∧ ¬ c = '+' := by
  constructor <;> intro he <;> subst he <;> exact absurd h (by decide)

/-- `int(str(n))` returns `n` for a natural `n`. -/
theorem pyIntParse_natRender (n : Nat) : pyIntParse (natRender n) = some (n : Int) := by
  cases hcs : natRender n with
  | nil => exact absurd hcs (natRender_digits n).2
  | cons c t =>
    have hcd : c.isDigit = true := (natRender_digits n).1 c (by rw [hcs]; simp)
    have hsign := isDigit_not_sign c hcd
    rw [pyIntParse, if_neg hsign.1, if_neg hsign.2, ← hcs, pyNatParse_natRender]
    rfl

/-- `int(str(z))` returns `z` for every integer `z`. -/
theorem pyIntParse_intRender (z : Int) : pyIntParse (intRender z) = some z := by
  by_cases hz : z < 0
  · rw [intRender, if_pos hz, pyIntParse, if_pos rfl, pyNatParse_natRender]
    show some (-(z.natAbs : Int)) = some z
    congr 1
    omega
  · rw [intRender, if_neg hz, pyIntParse_natRender]
    congr 1
    omega

/-- Re-casting the rendering of an integer value gives the same value. -/
theorem autocast_intRender (z : Int) : autocast (intRender z) = .vint z := by
  simp [autocast, pyIntParse_intRender]

/-- `dropWhile` of a satisfying prefix followed by a failing element. -/
theorem dropWhile_append_cons {α : Type} (pred : α → Bool) :
    ∀ (L : List α) (c : α) (rest : List α), (∀ x ∈ L, pred x = true) → pred c = false →
      (L ++ c :: rest).dropWhile pred = c :: rest := by
  intro L
  induction L with
  | nil =>
    intro c rest _ hc
    simp [List.dropWhile_cons, hc]
  | cons a L2 ih =>
    intro c rest hL hc
    have ha : pred a = true := hL a (by simp)
    simp only [List.cons_append, List.dropWhile_cons, ha, if_true]
    exact ih c rest (fun x hx => hL x (by simp [hx])) hc

/-- Leading zeros do not change the value of a digit string. -/
theorem digitsVal_replicate_zero (j : Nat) (ds : List Char) :
    digitsVal (List.replicate j '0' ++ ds) = digitsVal ds := by
  have haux : ∀ i, List.foldl (fun a c => 10 * a + (c.toNat - 48)) 0
      (List.replicate i '0') = 0 := by
    intro i
    induction i with
    | zero => rfl
    | succ i ih => simpa [List.replicate_succ] using ih
  rw [digitsVal, List.foldl_append, haux j]
  rfl

/-- A value below `10 ^ e` renders to at most `e` digit characters. -/
theorem natDigitChars_length_le (fp e : Nat) (h : fp < 10 ^ e) :
    (natDigitChars fp).length ≤ e := by
  rw [natDigitChars, List.length_reverse, List.length_map]
  by_cases h0 : fp = 0
  · subst h0
    simp
  · rw [Nat.digits_len 10 fp (by omega) h0]
    have := (Nat.lt_pow_iff_log_lt (by omega : 1 < 10) h0).mp h
    omega

/-- A normal form is a fixed point of normalisation. -/
theorem normFloat_fixed (m : Int) (e : Nat) (h : e = 0 ∨ m % 10 ≠ 0) :
    normFloat m e = (m, e) := by
  cases e with
  | zero => rfl
  | succ e2 =>
    rcases h with h | h
    · cases h
    · simp [normFloat, h]

/-- Normalisation produces a normal form. -/
theorem normFloat_normalized : ∀ (e : Nat) (m : Int),
    ((normFloat m e).2 = 0 ∨ (normFloat m e).1 % 10 ≠ 0) := by
  intro e
  induction e with
  | zero => intro m; left; rfl
  | succ e2 ih =>
    intro m
    by_cases h : m % 10 = 0
    · simpa [normFloat, h] using ih (m / 10)
    · right
      simpa [normFloat, h] using h

/-- A pair produced by normalisation is a normal form. -/
theorem normFloat_eq_normalized {m0 m : Int} {e0 e : Nat}
    (hp : normFloat m0 e0 = (m, e)) : e = 0 ∨ m % 10 ≠ 0 := by
  have hn := normFloat_normalized e0 m0
  rw [hp] at hn
  exact hn

/-- The float core only returns normal forms. -/
theorem pyFloatCore_normalized (cs : List Char) (m : Int) (e : Nat)
    (h : pyFloatCore cs = some (m, e)) : e = 0 ∨ m % 10 ≠ 0 := by
  simp only [pyFloatCore] at h
  split_ifs at h <;>
    first
    | exact Option.noConfusion h
    | exact normFloat_eq_normalized (Option.some.inj h)

/-- Negation preserves non-divisibility of the mantissa by 10. -/
theorem neg_emod_ten (a : Int) (h : a % 10 ≠ 0) : (-a) % 10 ≠ 0 := by
  intro hmod
  apply h
  exact Int.emod_eq_zero_of_dvd (dvd_neg.mp (Int.dvd_of_emod_eq_zero hmod))

/-- The float parse only returns normal forms. -/
theorem pyFloatParse_normalized (s : List Char) (m : Int) (e : Nat)
    (h : pyFloatParse s = some (m, e)) : e = 0 ∨ m % 10 ≠ 0 := by
  cases s with
  | nil => exact Option.noConfusion h
  | cons c rest =>
    rw [pyFloatParse] at h
    split_ifs at h with h1 h2
    · cases hc : pyFloatCore rest with
      | none => rw [hc] at h; exact Option.noConfusion h
      | some p =>
        rw [hc] at h
        have h2 : ((-p.1, p.2) : Int × Nat) = (m, e) := Option.some.inj h
        injection h2 with hm he
        subst hm
        subst he
        have hn := pyFloatCore_normalized rest p.1 p.2 (by rw [hc])
        rcases hn with hn | hn
        · exact Or.inl hn
        · exact Or.inr (neg_emod_ten p.1 hn)
    · exact pyFloatCore_normalized rest m e h
    · exact pyFloatCore_normalized (c :: rest) m e h

/-- One-step unfolding of the integer parse on a nonempty string. -/
theorem pyIntParse_cons (c : Char) (rest : List Char) :
    pyIntParse (c :: rest) =
      (if c = '-' then (pyNatParse rest).map (fun n => -(n : Int))
       else if c = '+' then (pyNatParse rest).map (fun n => (n : Int))
       else (pyNatParse (c :: rest)).map (fun n => (n : Int))) := rfl

/-- One-step unfolding of the float parse on a nonempty string. -/
theorem pyFloatParse_cons (c : Char) (rest : List Char) :
    pyFloatParse (c :: rest) =
      (if c = '-' then (pyFloatCore rest).map (fun p => (-p.1, p.2))
       else if c = '+' then pyFloatCore rest
       else pyFloatCore (c :: rest)) := rfl

/-- The float core reparses the rendered body of a normal-form decimal. -/
theorem pyFloatCore_render (M e : Nat) (h : e = 0 ∨ (M : Int) % 10 ≠ 0) :
    pyFloatCore (natRender (M / 10 ^ e) ++ '.' ::
        (if e = 0 then ['0']
         else List.replicate (e - (natDigitChars (M % 10 ^ e)).length) '0' ++
           natDigitChars (M % 10 ^ e))) = some ((M : Int), e) := by
  by_cases he : e = 0
  · subst he
    rw [show (if (0 : Nat) = 0 then ['0']
        else List.replicate (0 - (natDigitChars (M % 10 ^ 0)).length) '0' ++
          natDigitChars (M % 10 ^ 0)) = ['0'] from if_pos rfl,
      pow_zero, Nat.div_one]
    have hipd := natRender_digits M
    have htw := takeWhile_append_cons Char.isDigit (natRender M) '.' ['0']
      hipd.1 (by decide)
    have hdw := dropWhile_append_cons Char.isDigit (natRender M) '.' ['0']
      hipd.1 (by decide)
    simp only [pyFloatCore, htw, hdw]
    rw [if_neg (by simp), if_pos (by decide : (('.' :: ['0']).head? = some '.')),
      if_pos ⟨by decide, Or.inl hipd.2⟩]
    simp only [List.tail_cons, List.length_singleton, digitsVal_natRender]
    have hv0 : digitsVal ['0'] = 0 := by decide
    rw [hv0]
    have h1 : ((M : Int) * 10 ^ 1 + (0 : Nat)) = (M : Int) * 10 := by push_cast; ring
    rw [h1]
    have h2 : ((M : Int) * 10) % 10 = 0 := Int.mul_emod_left M 10
    have h3 : ((M : Int) * 10) / 10 = M := Int.mul_ediv_cancel M (by norm_num)
    simp [normFloat, h2, h3]
  · rw [if_neg he]
    have hMlt : M % 10 ^ e < 10 ^ e := Nat.mod_lt _ (Nat.pos_pow_of_pos e (by omega))
    have hlenle := natDigitChars_length_le (M % 10 ^ e) e hMlt
    have hipd := natRender_digits (M / 10 ^ e)
    have hfracd : ∀ c ∈ List.replicate (e - (natDigitChars (M % 10 ^ e)).length) '0' ++
        natDigitChars (M % 10 ^ e), c.isDigit = true := by
      intro c hc
      rcases List.mem_append.mp hc with hm | hm
      · rw [List.eq_of_mem_replicate hm]
        decide
      · exact natDigitChars_all_digits _ c hm
    have htw := takeWhile_append_cons Char.isDigit (natRender (M / 10 ^ e)) '.'
      (List.replicate (e - (natDigitChars (M % 10 ^ e)).length) '0' ++
        natDigitChars (M % 10 ^ e)) hipd.1 (by decide)
    have hdw := dropWhile_append_cons Char.isDigit (natRender (M / 10 ^ e)) '.'
      (List.replicate (e - (natDigitChars (M % 10 ^ e)).length) '0' ++
        natDigitChars (M % 10 ^ e)) hipd.1 (by decide)
    simp only [pyFloatCore, htw, hdw]
    rw [if_neg (by simp),
      if_pos (by simp : ((('.' ::
        (List.replicate (e - (natDigitChars (M % 10 ^ e)).length) '0' ++
          natDigitChars (M % 10 ^ e))).head?) = some '.')),
      if_pos ⟨List.all_eq_true.mpr hfracd, Or.inl hipd.2⟩]
    simp only [List.tail_cons]
    have hflen : (List.replicate (e - (natDigitChars (M % 10 ^ e)).length) '0' ++
        natDigitChars (M % 10 ^ e)).length = e := by
      rw [List.length_append, List.length_replicate]
      omega
    have hfval : digitsVal (List.replicate (e - (natDigitChars (M % 10 ^ e)).length) '0' ++
        natDigitChars (M % 10 ^ e)) = M % 10 ^ e := by
      rw [digitsVal_replicate_zero, digitsVal_natDigitChars]
    rw [hflen, hfval, digitsVal_natRender]
    have hval : ((M / 10 ^ e : Nat) : Int) * 10 ^ e + ((M % 10 ^ e : Nat) : Int) =
        (M : Int) := by
      have hnat : (M / 10 ^ e) * 10 ^ e + M % 10 ^ e = M := by
        rw [Nat.mul_comm]
        exact Nat.div_add_mod M (10 ^ e)
      exact_mod_cast hnat
    rw [hval]
    exact congrArg some (normFloat_fixed (M : Int) e (Or.inr (h.resolve_left he)))

/-- The rendering of a float value never parses as an integer (it contains a
decimal point). -/
theorem pyIntParse_floatRender (m : Int) (e : Nat) :
    pyIntParse (floatRender m e) = none := by
  have hdot : ∀ (A B : List Char), pyNatParse (A ++ '.' :: B) = none := by
    intro A B
    rw [pyNatParse, if_neg]
    intro hx
    have := List.all_eq_true.mp hx.2 '.' (by simp)
    exact absurd this (by decide)
  simp only [floatRender]
  by_cases hm : m < 0
  · rw [if_pos hm]
    simp only [List.singleton_append]
    rw [List.cons_append, pyIntParse_cons, if_pos rfl, hdot]
    rfl
  · rw [if_neg hm]
    simp only [List.nil_append]
    cases hcs : natRender (m.natAbs / 10 ^ e) with
    | nil => exact absurd hcs (natRender_digits _).2
    | cons c t =>
      have hcd : c.isDigit = true := (natRender_digits _).1 c (by rw [hcs]; simp)
      have hsign := isDigit_not_sign c hcd
      rw [List.cons_append, pyIntParse_cons, if_neg hsign.1, if_neg hsign.2,
        ← List.cons_append, ← hcs, hdot]
      rfl

/-- The rendering of a normal-form float value reparses to the same value. -/
theorem pyFloatParse_floatRender (m : Int) (e : Nat) (h : e = 0 ∨ m % 10 ≠ 0) :
    pyFloatParse (floatRender m e) = some (m, e) := by
  have habs : e = 0 ∨ ((m.natAbs : Int)) % 10 ≠ 0 := by
    rcases h with h | h
    · exact Or.inl h
    · right
      intro hmod
      exact h (Int.emod_eq_zero_of_dvd
        (Int.dvd_natAbs.mp (Int.dvd_of_emod_eq_zero hmod)))
  have hcore := pyFloatCore_render m.natAbs e habs
  simp only [floatRender]
  by_cases hm : m < 0
  · rw [if_pos hm]
    simp only [List.singleton_append]
    rw [List.cons_append, pyFloatParse_cons, if_pos rfl, hcore]
    show some (-(m.natAbs : Int), e) = some (m, e)
    have hneg : -((m.natAbs : Int)) = m := by omega
    rw [hneg]
  · rw [if_neg hm]
    simp only [List.nil_append]
    cases hcs : natRender (m.natAbs / 10 ^ e) with
    | nil => exact absurd hcs (natRender_digits _).2
    | cons c t =>
      have hcd : c.isDigit = true := (natRender_digits _).1 c (by rw [hcs]; simp)
      have hsign := isDigit_not_sign c hcd
      rw [List.cons_append, pyFloatParse_cons, if_neg hsign.1, if_neg hsign.2,
        ← List.cons_append, ← hcs, hcore]
      have hpos : ((m.natAbs : Int)) = m := by omega
      rw [hpos]

/-- C9: the scalar auto-cast is a pure function — the same input always yields
the same result, `"0"` yields integer 0 — and re-casting the string rendering
of an already-cast value yields that same value. -/
theorem autocast_deterministic_and_roundtrip (s : List Char) :
    autocast s = autocast s ∧
    autocast "0".data = .vint 0 ∧
    autocast (pyStr (autocast s)) = autocast s := by
  refine ⟨rfl, by decide, ?_⟩
  cases hi : pyIntParse s with
  | some n =>
    have hcast : autocast s = .vint n := by simp [autocast, hi]
    rw [hcast]
    exact autocast_intRender n
  | none =>
    cases hf : pyFloatParse s with
    | some p =>
      have hnorm : p.2 = 0 ∨ p.1 % 10 ≠ 0 := pyFloatParse_normalized s p.1 p.2 (by rw [hf])
      have hcast : autocast s = .vfloat p.1 p.2 := by simp [autocast, hi, hf]
      rw [hcast]
      show autocast (floatRender p.1 p.2) = .vfloat p.1 p.2
      simp [autocast, pyIntParse_floatRender p.1 p.2,
        pyFloatParse_floatRender p.1 p.2 hnorm]
    | none =>
      cases hb : boolify s with
      | some b =>
        have hcast : autocast s = .vbool b := by simp [autocast, hi, hf, hb]
        rw [hcast]
        cases b <;> decide
      | none =>
        have hcast : autocast s = .vstr s := by simp [autocast, hi, hf, hb]
        rw [hcast]
        exact hcast

end PyServal
